import Mathlib

/-
Verification of the payments-engine ledger core.

The definitions below are a shallow embedding of the Rust sources:
  * src/consts.rs, src/errors.rs          (SCALE, error taxonomy)
  * src/models/amount.rs                  (Amount, checked arithmetic, parse_4dp)
  * src/models/domain_state.rs            (TxKind, DisputeState, TxRecord, Account, Account::total)
  * src/state.rs                          (Engine: accounts map, txs map, acct_mut)
  * src/services/commands/<kind>_command.rs (the five process_*_command handlers)

Machine integers (i64) are modelled as Int together with explicit range checks;
Rust HashMaps are modelled as association lists with first-match lookup and
first-match in-place update (one entry per key, as in a map); Rust strings are
modelled as lists of characters.  Each handler returns the new engine state
paired with a Bool: true models Ok(()), false models Err(AppErrors::Overflow)
(the only error the handlers produce).  On a false result the returned state
contains exactly the partial mutations the Rust code performed before the
failing checked operation, as in the source.
-/

/-- Fixed-point scaling factor (consts.rs: SCALE = 10_000). -/
def SCALE : Int := 10000

/-- Largest value of a 64-bit signed integer. -/
def i64Max : Int := 9223372036854775807

/-- Smallest value of a 64-bit signed integer. -/
def i64Min : Int := -9223372036854775808

/-- Overflow-checked i64 addition (Amount::checked_add in amount.rs): the exact
sum when it is representable, none on overflow. -/
def checked_add (a b : Int) : Option Int :=
  if i64Min ≤ a + b ∧ a + b ≤ i64Max then some (a + b) else none

/-- Overflow-checked i64 subtraction (Amount::checked_sub in amount.rs). -/
def checked_sub (a b : Int) : Option Int :=
  if i64Min ≤ a - b ∧ a - b ≤ i64Max then some (a - b) else none

/-- Overflow-checked i64 multiplication (i64::checked_mul used by parse_4dp). -/
def checked_mul (a b : Int) : Option Int :=
  if i64Min ≤ a * b ∧ a * b ≤ i64Max then some (a * b) else none

/-- Two's-complement wrap-around of an integer into the i64 range: the
semantics of the plain `+` operator on i64 in a release build. -/
def wrap_i64 (x : Int) : Int :=
  (x + 9223372036854775808) % 18446744073709551616 - 9223372036854775808

/-- ClientId (identifiers.rs): an opaque u16; modelled as Nat. -/
abbrev ClientId := Nat

/-- TxId (identifiers.rs): an opaque u32; modelled as Nat. -/
abbrev TxId := Nat

/-- Amount (amount.rs): an i64 number of ten-thousandths; modelled as Int. -/
abbrev Amount := Int

/-- TxKind (domain_state.rs). -/
inductive TxKind where
  | Deposit
  | Withdrawal
  deriving DecidableEq

/-- DisputeState (domain_state.rs). -/
inductive DisputeState where
  | Normal
  | Disputed
  | ChargedBack
  deriving DecidableEq

/-- TxRecord (domain_state.rs). -/
structure TxRecord where
  client : ClientId
  kind : TxKind
  amount : Amount
  state : DisputeState
  deriving DecidableEq

/-- Account (domain_state.rs); Default derives to zero balances, unlocked. -/
structure Account where
  available : Amount := 0
  held : Amount := 0
  locked : Bool := false
  deriving DecidableEq

/-- Account::total (domain_state.rs): computed with the PLAIN i64 `+`
(`Amount(self.available.0 + self.held.0)`), which wraps silently in a release
build; it is not one of the checked operations. -/
def Account.total (a : Account) : Amount := wrap_i64 (a.available + a.held)

/-- First-match association-list lookup: the model of HashMap::get. -/
def lookupKey {β : Type} (k : Nat) : List (Nat × β) → Option β
  | [] => none
  | p :: ps => if p.1 = k then some p.2 else lookupKey k ps

/-- First-match in-place value update: the model of mutating through
HashMap::get_mut / entry.  Keys and list structure are preserved. -/
def updateKey {β : Type} (k : Nat) (f : β → β) : List (Nat × β) → List (Nat × β)
  | [] => []
  | p :: ps => if p.1 = k then (p.1, f p.2) :: ps else p :: updateKey k f ps

/-- Engine (state.rs): the accounts map and the transaction-record map. -/
structure Engine where
  accounts : List (ClientId × Account) := []
  txs : List (TxId × TxRecord) := []
  deriving DecidableEq

/-- The empty ledger: no accounts, no transaction records. -/
def emptyEngine : Engine := {}

/-- Engine::acct_mut (state.rs): get-or-create.  Returns the engine with the
client's account ensured to exist, together with the account value read. -/
def acct_mut (c : ClientId) (e : Engine) : Engine × Account :=
  match lookupKey c e.accounts with
  | some a => (e, a)
  | none => ({ e with accounts := e.accounts ++ [(c, {})] }, {})

/-- DepositCommand (tx_command.rs). -/
structure DepositCommand where
  client : ClientId
  tx : TxId
  amount : Amount

/-- WithdrawalCommand (tx_command.rs). -/
structure WithdrawalCommand where
  client : ClientId
  tx : TxId
  amount : Amount

/-- DisputeCommand (tx_command.rs). -/
structure DisputeCommand where
  client : ClientId
  tx : TxId

/-- ResolveCommand (tx_command.rs). -/
structure ResolveCommand where
  client : ClientId
  tx : TxId

/-- ChargebackCommand (tx_command.rs). -/
structure ChargebackCommand where
  client : ClientId
  tx : TxId

/-- process_deposit_command (services/commands/deposit_command.rs). -/
def process_deposit_command (cmd : DepositCommand) (e : Engine) : Engine × Bool :=
  if (lookupKey cmd.tx e.txs).isSome then (e, true)
  else
    let e1 := (acct_mut cmd.client e).1
    let acc := (acct_mut cmd.client e).2
    if acc.locked then (e1, true)
    else
      match checked_add acc.available cmd.amount with
      | none => (e1, false)
      | some v =>
        let e2 : Engine :=
          { e1 with accounts := updateKey cmd.client (fun a => { a with available := v }) e1.accounts }
        ({ e2 with txs := e2.txs ++
            [(cmd.tx, { client := cmd.client, kind := TxKind.Deposit,
                        amount := cmd.amount, state := DisputeState.Normal })] }, true)

/-- process_withdrawal_command (services/commands/withdrawal_command.rs). -/
def process_withdrawal_command (cmd : WithdrawalCommand) (e : Engine) : Engine × Bool :=
  if (lookupKey cmd.tx e.txs).isSome then (e, true)
  else
    let e1 := (acct_mut cmd.client e).1
    let acc := (acct_mut cmd.client e).2
    if acc.locked then (e1, true)
    else if acc.available < cmd.amount then (e1, true)
    else
      match checked_sub acc.available cmd.amount with
      | none => (e1, false)
      | some v =>
        let e2 : Engine :=
          { e1 with accounts := updateKey cmd.client (fun a => { a with available := v }) e1.accounts }
        ({ e2 with txs := e2.txs ++
            [(cmd.tx, { client := cmd.client, kind := TxKind.Withdrawal,
                        amount := cmd.amount, state := DisputeState.Normal })] }, true)

/-- Eligibility probe performed at the top of process_dispute_command: the
record's amount when the record exists, belongs to the commanding client, is a
deposit and is in Normal state; none otherwise. -/
def disputeEligible (cmd : DisputeCommand) (e : Engine) : Option Amount :=
  match lookupKey cmd.tx e.txs with
  | none => none
  | some r =>
    if r.client = cmd.client ∧ r.kind = TxKind.Deposit ∧ r.state = DisputeState.Normal
    then some r.amount else none

/-- process_dispute_command (services/commands/dispute_command.rs). -/
def process_dispute_command (cmd : DisputeCommand) (e : Engine) : Engine × Bool :=
  match disputeEligible cmd e with
  | none => (e, true)
  | some amount =>
    let e1 := (acct_mut cmd.client e).1
    let acc := (acct_mut cmd.client e).2
    if acc.available < amount then (e1, true)
    else
      match checked_sub acc.available amount with
      | none => (e1, false)
      | some av =>
        let e2 : Engine :=
          { e1 with accounts := updateKey cmd.client (fun a => { a with available := av }) e1.accounts }
        match checked_add acc.held amount with
        | none => (e2, false)
        | some hd =>
          let e3 : Engine :=
            { e2 with accounts := updateKey cmd.client (fun a => { a with held := hd }) e2.accounts }
          ({ e3 with txs := updateKey cmd.tx (fun r => { r with state := DisputeState.Disputed }) e3.txs }, true)

/-- Eligibility probe of process_resolve_command: the record's amount when the
record exists, belongs to the commanding client and is Disputed. -/
def resolveEligible (cmd : ResolveCommand) (e : Engine) : Option Amount :=
  match lookupKey cmd.tx e.txs with
  | none => none
  | some r =>
    if r.client = cmd.client ∧ r.state = DisputeState.Disputed then some r.amount else none

/-- process_resolve_command (services/commands/resolve_command.rs).  Note the
explicit `held < amount` pre-check, which is a hard error (Err(Overflow)), not
a silent no-op. -/
def process_resolve_command (cmd : ResolveCommand) (e : Engine) : Engine × Bool :=
  match resolveEligible cmd e with
  | none => (e, true)
  | some amount =>
    let e1 := (acct_mut cmd.client e).1
    let acc := (acct_mut cmd.client e).2
    if acc.held < amount then (e1, false)
    else
      match checked_sub acc.held amount with
      | none => (e1, false)
      | some hd =>
        let e2 : Engine :=
          { e1 with accounts := updateKey cmd.client (fun a => { a with held := hd }) e1.accounts }
        match checked_add acc.available amount with
        | none => (e2, false)
        | some av =>
          let e3 : Engine :=
            { e2 with accounts := updateKey cmd.client (fun a => { a with available := av }) e2.accounts }
          ({ e3 with txs := updateKey cmd.tx (fun r => { r with state := DisputeState.Normal }) e3.txs }, true)

/-- Eligibility probe of process_chargeback_command: the record's amount when
the record exists, belongs to the commanding client and is Disputed. -/
def chargebackEligible (cmd : ChargebackCommand) (e : Engine) : Option Amount :=
  match lookupKey cmd.tx e.txs with
  | none => none
  | some r =>
    if r.client = cmd.client ∧ r.state = DisputeState.Disputed then some r.amount else none

/-- process_chargeback_command (services/commands/chargeback_command.rs). -/
def process_chargeback_command (cmd : ChargebackCommand) (e : Engine) : Engine × Bool :=
  match chargebackEligible cmd e with
  | none => (e, true)
  | some amount =>
    let e1 := (acct_mut cmd.client e).1
    let acc := (acct_mut cmd.client e).2
    match checked_sub acc.held amount with
    | none => (e1, false)
    | some hd =>
      let e2 : Engine :=
        { e1 with accounts := updateKey cmd.client (fun a => { a with held := hd, locked := true }) e1.accounts }
      ({ e2 with txs := updateKey cmd.tx (fun r => { r with state := DisputeState.ChargedBack }) e2.txs }, true)

/-- The closed union of the five command kinds (§9 of the design: the
TxCommandTrait dispatch reimplemented as a sum type). -/
inductive Command where
  | deposit : ClientId → TxId → Amount → Command
  | withdrawal : ClientId → TxId → Amount → Command
  | dispute : ClientId → TxId → Command
  | resolve : ClientId → TxId → Command
  | chargeback : ClientId → TxId → Command

/-- Dispatch a single command to its handler (TxCommandTrait::execute). -/
def step : Command → Engine → Engine × Bool
  | Command.deposit c tx a, e => process_deposit_command { client := c, tx := tx, amount := a } e
  | Command.withdrawal c tx a, e => process_withdrawal_command { client := c, tx := tx, amount := a } e
  | Command.dispute c tx, e => process_dispute_command { client := c, tx := tx } e
  | Command.resolve c tx, e => process_resolve_command { client := c, tx := tx } e
  | Command.chargeback c tx, e => process_chargeback_command { client := c, tx := tx } e

/-- Apply a command sequence in order (the run loop of csv_service.rs: a
failing command is logged and skipped, processing continues on the state the
failing handler left behind). -/
def runList (e : Engine) : List Command → Engine
  | [] => e
  | c :: cs => runList (step c e).1 cs

/-- Apply a command sequence, recording whether every command returned Ok. -/
def runAllAux (e : Engine) : List Command → Engine × Bool
  | [] => (e, true)
  | c :: cs =>
    let p := step c e
    let q := runAllAux p.1 cs
    (q.1, p.2 && q.2)

/-- The account currently stored for a client (zero-valued if absent). -/
def acctOf (c : ClientId) (e : Engine) : Account := (lookupKey c e.accounts).getD {}

/-- Sum of available + held over an account list (exact integer sum). -/
def sumAcc (l : List (ClientId × Account)) : Int :=
  (l.map (fun p => p.2.available + p.2.held)).sum

/-- Sum of available + held over all accounts of the ledger. -/
def sumTotals (e : Engine) : Int := sumAcc e.accounts

/-- A client's exact (non-wrapping) total: available + held. -/
def clientTotal (c : ClientId) (e : Engine) : Int :=
  (acctOf c e).available + (acctOf c e).held

/-- Contribution of one transaction record to a client's disputed total. -/
def contrib (c : ClientId) (q : TxId × TxRecord) : Int :=
  if q.2.client = c ∧ q.2.state = DisputeState.Disputed then q.2.amount else 0

/-- Sum of the amounts of a client's currently Disputed records. -/
def disputedSum (c : ClientId) (txs : List (TxId × TxRecord)) : Int :=
  (txs.map (contrib c)).sum

/-- A command whose amount field (if any) is non-negative. -/
def cmdNonneg : Command → Bool
  | Command.deposit _ _ a => decide (0 ≤ a)
  | Command.withdrawal _ _ a => decide (0 ≤ a)
  | _ => true

/-- Apply a command sequence while accumulating the amounts of the
successfully applied deposits and withdrawals.  A deposit or withdrawal is
applied exactly when it inserts its transaction record (its TxId was absent
before the command and present after it). -/
def runSums (e : Engine) (dep wd : Int) : List Command → Engine × Int × Int
  | [] => (e, dep, wd)
  | c :: cs =>
    let e1 := (step c e).1
    match c with
    | Command.deposit _ tx a =>
      if (lookupKey tx e.txs).isNone ∧ (lookupKey tx e1.txs).isSome
      then runSums e1 (dep + a) wd cs else runSums e1 dep wd cs
    | Command.withdrawal _ tx a =>
      if (lookupKey tx e.txs).isNone ∧ (lookupKey tx e1.txs).isSome
      then runSums e1 dep (wd + a) cs else runSums e1 dep wd cs
    | _ => runSums e1 dep wd cs

/-- Overwrite the locked flag of a client's account (no-op when absent). -/
def setLocked (c : ClientId) (b : Bool) (e : Engine) : Engine :=
  { e with accounts := updateKey c (fun a => { a with locked := b }) e.accounts }

/-- AmountParseError (errors.rs). -/
inductive AmountParseError where
  | Empty
  | MalformedInt
  | MalformedFrac
  | Overflow
  deriving DecidableEq

/-- Whitespace recognizer used by str::trim (restricted to the ASCII
whitespace characters; the handled inputs are ASCII). -/
def isWs (c : Char) : Bool :=
  c.toNat = 32 ∨ c.toNat = 9 ∨ c.toNat = 10 ∨ c.toNat = 13 ∨ c.toNat = 11 ∨ c.toNat = 12

/-- str::trim on a character list. -/
def trimChars (cs : List Char) : List Char :=
  ((cs.dropWhile isWs).reverse.dropWhile isWs).reverse

/-- ASCII decimal digit recognizer. -/
def isDigitCh (c : Char) : Bool := 48 ≤ c.toNat ∧ c.toNat ≤ 57

/-- Numeric value of a digit string (most significant first). -/
def digitsVal (cs : List Char) : Nat :=
  cs.foldl (fun n c => n * 10 + (c.toNat - 48)) 0

/-- Parse a non-empty all-digit string as a Nat; none otherwise. -/
def parseNatDigits (cs : List Char) : Option Nat :=
  if cs ≠ [] ∧ cs.all isDigitCh then some (digitsVal cs) else none

/-- Range admission for i64::from_str: the signed value when representable. -/
def i64OfNat (n : Nat) (neg : Bool) : Option Int :=
  if neg then (if i64Min ≤ -(n : Int) then some (-(n : Int)) else none)
  else (if (n : Int) ≤ i64Max then some ((n : Int)) else none)

/-- Digits (with sign already decided) to a range-checked i64. -/
def parseI64core (cs : List Char) (neg : Bool) : Option Int :=
  match parseNatDigits cs with
  | some n => i64OfNat n neg
  | none => none

/-- i64::from_str: an optional single leading '+' or '-' followed by one or
more decimal digits, rejected on 64-bit overflow. -/
def parseI64 (cs : List Char) : Option Int :=
  match cs with
  | [] => none
  | c :: r =>
    if c = '+' then parseI64core r false
    else if c = '-' then parseI64core r true
    else parseI64core cs false

/-- Split at the first '.', as str::splitn(2, '.'): the part before the dot
and, when a dot is present, everything after it. -/
def splitAtDot : List Char → List Char × Option (List Char)
  | [] => ([], none)
  | c :: cs =>
    if c = '.' then ([], some cs)
    else
      let p := splitAtDot cs
      (c :: p.1, p.2)

/-- The sign handling at the top of parse_4dp: neg is true when the first
character is '-'; one leading '-' or '+' is stripped. -/
def stripSign (cs : List Char) : List Char × Bool :=
  match cs with
  | [] => ([], false)
  | c :: r => if c = '-' then (r, true) else if c = '+' then (r, false) else (c :: r, false)

/-- Truncate-to-4 then zero-pad-to-4, as the keep/push-'0' loop of parse_4dp. -/
def pad4 (keep : List Char) : List Char := keep ++ List.replicate (4 - keep.length) '0'

/-- Amount::parse_4dp (amount.rs), on character lists.  The fractional source
defaults to "0" when no dot is present; only its first four characters are
kept; the first dropped character rounds the kept part up when its code is at
least that of '5' (the byte comparison of the source). -/
def parse_4dp (input : List Char) : Except AmountParseError Amount :=
  let s := trimChars input
  if s = [] then Except.error AmountParseError.Empty
  else
    let s1 := (stripSign s).1
    let neg := (stripSign s).2
    let ip := (splitAtDot s1).1
    let fracOpt := (splitAtDot s1).2
    match parseI64 ip with
    | none => Except.error AmountParseError.MalformedInt
    | some intPart =>
      let fracSrc := fracOpt.getD ['0']
      let keep := fracSrc.take 4
      let rest := fracSrc.drop 4
      match parseI64 (pad4 keep) with
      | none => Except.error AmountParseError.MalformedFrac
      | some frac0 =>
        match (if rest ≠ [] ∧ 53 ≤ (rest.headD ' ').toNat then checked_add frac0 1 else some frac0) with
        | none => Except.error AmountParseError.Overflow
        | some frac =>
          match checked_mul intPart SCALE with
          | none => Except.error AmountParseError.Overflow
          | some base =>
            match checked_add base frac with
            | none => Except.error AmountParseError.Overflow
            | some val => Except.ok (if neg then -val else val)

/-- The integer part parse_4dp submits to i64::from_str: after trimming and
stripping at most one leading sign, the characters before the first dot. -/
def intPartOf (input : List Char) : List Char :=
  (splitAtDot (stripSign (trimChars input)).1).1

/-- The fractional string parse_4dp submits to i64::from_str: the first four
characters after the first dot (the default "0" when no dot is present),
zero-padded to four characters. -/
def fracKeptOf (input : List Char) : List Char :=
  pad4 (((splitAtDot (stripSign (trimChars input)).1).2.getD ['0']).take 4)

/-- An optionally signed non-empty digit string: one optional leading '+' or
'-' followed by at least one ASCII digit and nothing else. -/
def signedDigitsOk : List Char → Bool
  | [] => false
  | c :: r =>
    if c = '+' ∨ c = '-' then !r.isEmpty && r.all isDigitCh
    else (c :: r).all isDigitCh

/-- Command sequence with amounts at the i64 extremes (9223372036854775807 is
i64Max).  The final dispute aborts on a held overflow after it has already
debited available, leaving the global sum above deposits minus withdrawals. -/
def cmdsConservationCx : List Command :=
  [Command.deposit 1 1 9223372036854775807, Command.dispute 1 1,
   Command.deposit 1 2 (-9223372036854775807), Command.dispute 1 2,
   Command.deposit 1 3 (-9223372036854775807), Command.dispute 1 3,
   Command.deposit 1 4 (-9223372036854775807), Command.dispute 1 4]

/-- Six commands that all return Ok and leave client 1 with held =
-i64Max while transaction 1 (amount i64Max) is still Disputed, so that a
chargeback of transaction 1 underflows its checked subtraction. -/
def cmdsHeldCx : List Command :=
  [Command.deposit 1 1 9223372036854775807, Command.dispute 1 1,
   Command.deposit 1 2 (-9223372036854775807), Command.dispute 1 2,
   Command.deposit 1 3 (-9223372036854775807), Command.dispute 1 3]

/-- Three successful commands that leave client 1 with available = i64Max and
held = 1, whose exact total is not representable in an i64. -/
def cmdsTotalWrap : List Command :=
  [Command.deposit 1 2 1, Command.dispute 1 2,
   Command.deposit 1 1 9223372036854775807]

/-- All stored accounts have non-negative balances, with held at most
i64Max. -/
def AcctsOk (e : Engine) : Prop :=
  ∀ p ∈ e.accounts, 0 ≤ p.2.available ∧ 0 ≤ p.2.held ∧ p.2.held ≤ i64Max

/-- All stored transaction records carry non-negative amounts. -/
def RecsNonneg (e : Engine) : Prop := ∀ q ∈ e.txs, 0 ≤ q.2.amount

/-- Every client's held balance equals the sum of the amounts of that
client's currently Disputed records. -/
def HeldInv (e : Engine) : Prop := ∀ c, (acctOf c e).held = disputedSum c e.txs

/-- The inductive invariant of runs built from non-negative amounts in which
every command returned Ok. -/
def GoodState (e : Engine) : Prop := AcctsOk e ∧ RecsNonneg e ∧ HeldInv e

/-
Infrastructure lemmas about the association-list maps, the checked
operations and the handler eligibility probes.
-/

theorem checked_add_some {a b v : Int} (h : checked_add a b = some v) :
    v = a + b ∧ i64Min ≤ a + b ∧ a + b ≤ i64Max := by
  unfold checked_add at h
  split at h
  · exact ⟨(Option.some_inj.mp h).symm, by assumption⟩
  · exact absurd h (by simp)

theorem checked_add_of_range {a b : Int} (h1 : i64Min ≤ a + b) (h2 : a + b ≤ i64Max) :
    checked_add a b = some (a + b) := by
  unfold checked_add
  rw [if_pos ⟨h1, h2⟩]

theorem checked_sub_some {a b v : Int} (h : checked_sub a b = some v) :
    v = a - b ∧ i64Min ≤ a - b ∧ a - b ≤ i64Max := by
  unfold checked_sub at h
  split at h
  · exact ⟨(Option.some_inj.mp h).symm, by assumption⟩
  · exact absurd h (by simp)

theorem checked_sub_of_range {a b : Int} (h1 : i64Min ≤ a - b) (h2 : a - b ≤ i64Max) :
    checked_sub a b = some (a - b) := by
  unfold checked_sub
  rw [if_pos ⟨h1, h2⟩]

theorem lookupKey_append_left {β : Type} {k : Nat} {l : List (Nat × β)} {v : β}
    (m : List (Nat × β)) (h : lookupKey k l = some v) :
    lookupKey k (l ++ m) = some v := by
  induction l with
  | nil => simp [lookupKey] at h
  | cons p ps ih =>
    by_cases hp : p.1 = k
    · simp only [lookupKey, hp, if_true] at h
      simp [lookupKey, hp, h]
    · simp only [lookupKey, hp, if_false] at h
      simp [lookupKey, hp, ih h]

theorem lookupKey_append_right {β : Type} {k : Nat} {l : List (Nat × β)}
    (m : List (Nat × β)) (h : lookupKey k l = none) :
    lookupKey k (l ++ m) = lookupKey k m := by
  induction l with
  | nil => simp
  | cons p ps ih =>
    by_cases hp : p.1 = k
    · simp [lookupKey, hp] at h
    · simp only [lookupKey, hp, if_false] at h
      simp [lookupKey, hp, ih h]

theorem lookupKey_singleton_self {β : Type} (k : Nat) (v : β) :
    lookupKey k [(k, v)] = some v := by
  simp [lookupKey]

theorem lookupKey_singleton_ne {β : Type} {j k : Nat} (v : β) (h : j ≠ k) :
    lookupKey j [(k, v)] = none := by
  have hkj : ¬(k = j) := fun hh => h hh.symm
  simp [lookupKey, hkj]

theorem lookupKey_updateKey_self {β : Type} (k : Nat) (f : β → β) (l : List (Nat × β)) :
    lookupKey k (updateKey k f l) = (lookupKey k l).map f := by
  induction l with
  | nil => simp [lookupKey, updateKey]
  | cons p ps ih =>
    by_cases hp : p.1 = k
    · simp [lookupKey, updateKey, hp]
    · simp [lookupKey, updateKey, hp, ih]

theorem lookupKey_updateKey_ne {β : Type} {j k : Nat} (f : β → β) (l : List (Nat × β))
    (h : j ≠ k) : lookupKey j (updateKey k f l) = lookupKey j l := by
  induction l with
  | nil => simp [updateKey]
  | cons p ps ih =>
    have hkj : ¬(k = j) := fun hh => h hh.symm
    by_cases hp : p.1 = k
    · simp [lookupKey, updateKey, hp, hkj]
    · by_cases hq : p.1 = j
      · simp [lookupKey, updateKey, hp, hq, h]
      · simp [lookupKey, updateKey, hp, hq, ih]

theorem updateKey_of_lookup_none {β : Type} {k : Nat} {l : List (Nat × β)} (f : β → β)
    (h : lookupKey k l = none) : updateKey k f l = l := by
  induction l with
  | nil => rfl
  | cons p ps ih =>
    by_cases hp : p.1 = k
    · simp [lookupKey, hp] at h
    · simp only [lookupKey, hp, if_false] at h
      simp [updateKey, hp, ih h]

theorem updateKey_append_left {β : Type} {k : Nat} {l : List (Nat × β)} {v : β}
    (f : β → β) (m : List (Nat × β)) (h : lookupKey k l = some v) :
    updateKey k f (l ++ m) = updateKey k f l ++ m := by
  induction l with
  | nil => simp [lookupKey] at h
  | cons p ps ih =>
    by_cases hp : p.1 = k
    · simp [updateKey, hp]
    · simp only [lookupKey, hp, if_false] at h
      simp [updateKey, hp, ih h]

theorem updateKey_updateKey {β : Type} (k : Nat) (f g : β → β) (l : List (Nat × β)) :
    updateKey k f (updateKey k g l) = updateKey k (fun x => f (g x)) l := by
  induction l with
  | nil => rfl
  | cons p ps ih =>
    by_cases hp : p.1 = k
    · simp [updateKey, hp]
    · simp [updateKey, hp, ih]

theorem updateKey_comm_ne {β : Type} {j k : Nat} (f g : β → β) (l : List (Nat × β))
    (h : j ≠ k) : updateKey j f (updateKey k g l) = updateKey k g (updateKey j f l) := by
  induction l with
  | nil => rfl
  | cons p ps ih =>
    have hkj : ¬(k = j) := fun hh => h hh.symm
    by_cases hp : p.1 = k
    · simp [updateKey, hp, hkj, ih]
    · by_cases hq : p.1 = j
      · simp [updateKey, hp, hq, h, ih]
      · simp [updateKey, hp, hq, ih]

theorem updateKey_congr {β : Type} {f g : β → β} (k : Nat) (l : List (Nat × β))
    (h : ∀ x, f x = g x) : updateKey k f l = updateKey k g l := by
  induction l with
  | nil => rfl
  | cons p ps ih =>
    by_cases hp : p.1 = k
    · simp [updateKey, hp, h]
    · simp [updateKey, hp, ih]

theorem mem_of_lookupKey {β : Type} {k : Nat} {l : List (Nat × β)} {v : β}
    (h : lookupKey k l = some v) : (k, v) ∈ l := by
  induction l with
  | nil => simp [lookupKey] at h
  | cons p ps ih =>
    by_cases hp : p.1 = k
    · simp only [lookupKey, hp, if_true, Option.some_inj] at h
      have hpv : (k, v) = p := by rw [← hp, ← h]
      rw [hpv]
      exact List.mem_cons_self p ps
    · simp only [lookupKey, hp, if_false] at h
      exact List.mem_cons_of_mem _ (ih h)

theorem forall_mem_updateKey {β : Type} (P : β → Prop) {k : Nat} {l : List (Nat × β)}
    {f : β → β} (hl : ∀ p ∈ l, P p.2) (hf : ∀ v, lookupKey k l = some v → P (f v)) :
    ∀ p ∈ updateKey k f l, P p.2 := by
  induction l with
  | nil => simp [updateKey]
  | cons p ps ih =>
    by_cases hp : p.1 = k
    · intro q hq
      simp only [updateKey, hp, if_true] at hq
      rcases List.mem_cons.mp hq with hq | hq
      · rw [hq]
        exact hf p.2 (by simp [lookupKey, hp])
      · exact hl q (List.mem_cons_of_mem _ hq)
    · intro q hq
      simp only [updateKey, hp, if_false] at hq
      rcases List.mem_cons.mp hq with hq | hq
      · exact hq ▸ hl p (List.mem_cons_self p ps)
      · exact ih (fun x hx => hl x (List.mem_cons_of_mem _ hx))
          (fun v hv => hf v (by simp [lookupKey, hp, hv])) q hq

theorem sumAcc_append (l : List (ClientId × Account)) (c : ClientId) (a : Account) :
    sumAcc (l ++ [(c, a)]) = sumAcc l + (a.available + a.held) := by
  simp [sumAcc]

theorem sumAcc_updateKey {l : List (ClientId × Account)} {c : ClientId} {acc : Account}
    (f : Account → Account) (h : lookupKey c l = some acc) :
    sumAcc (updateKey c f l) =
      sumAcc l - (acc.available + acc.held) + ((f acc).available + (f acc).held) := by
  induction l with
  | nil => simp [lookupKey] at h
  | cons p ps ih =>
    by_cases hp : p.1 = c
    · simp only [lookupKey, hp, if_true, Option.some_inj] at h
      simp only [updateKey, hp, if_true, sumAcc, List.map_cons, List.sum_cons, h]
      have : sumAcc ps = (ps.map (fun p => p.2.available + p.2.held)).sum := rfl
      ring
    · simp only [lookupKey, hp, if_false] at h
      simp only [updateKey, hp, if_false, sumAcc, List.map_cons, List.sum_cons]
      have := ih h
      simp only [sumAcc] at this
      rw [this]
      ring

theorem disputedSum_append (c : ClientId) (l : List (TxId × TxRecord)) (tx : TxId)
    (r : TxRecord) : disputedSum c (l ++ [(tx, r)]) = disputedSum c l + contrib c (tx, r) := by
  simp [disputedSum]

theorem disputedSum_updateKey {l : List (TxId × TxRecord)} {tx : TxId} {r : TxRecord}
    (c : ClientId) (f : TxRecord → TxRecord) (h : lookupKey tx l = some r) :
    disputedSum c (updateKey tx f l) =
      disputedSum c l - contrib c (tx, r) + contrib c (tx, f r) := by
  induction l with
  | nil => simp [lookupKey] at h
  | cons p ps ih =>
    by_cases hp : p.1 = tx
    · simp only [lookupKey, hp, if_true, Option.some_inj] at h
      have hp2 : (tx, r) = p := by rw [← hp, ← h]
      simp only [updateKey, hp, if_true, disputedSum, List.map_cons, List.sum_cons, h]
      rw [← hp2]
      ring
    · simp only [lookupKey, hp, if_false] at h
      simp only [updateKey, hp, if_false, disputedSum, List.map_cons, List.sum_cons]
      have := ih h
      simp only [disputedSum] at this
      rw [this]
      ring

theorem contrib_nonneg {c : ClientId} {q : TxId × TxRecord} (h : 0 ≤ q.2.amount) :
    0 ≤ contrib c q := by
  unfold contrib
  split
  · exact h
  · exact le_refl 0

theorem contrib_le_disputedSum {c : ClientId} {l : List (TxId × TxRecord)} {tx : TxId}
    {r : TxRecord} (h : lookupKey tx l = some r) (hnn : ∀ q ∈ l, 0 ≤ q.2.amount) :
    contrib c (tx, r) ≤ disputedSum c l := by
  have hmem : (tx, r) ∈ l := mem_of_lookupKey h
  have hmap : contrib c (tx, r) ∈ l.map (contrib c) := List.mem_map_of_mem _ hmem
  exact List.single_le_sum (fun x hx => by
    rcases List.mem_map.mp hx with ⟨q, hq, hqx⟩
    exact hqx ▸ contrib_nonneg (hnn q hq)) _ hmap

theorem acct_mut_of_some {c : ClientId} {e : Engine} {a : Account}
    (h : lookupKey c e.accounts = some a) : acct_mut c e = (e, a) := by
  unfold acct_mut
  rw [h]

theorem acct_mut_of_none {c : ClientId} {e : Engine}
    (h : lookupKey c e.accounts = none) :
    acct_mut c e = ({ e with accounts := e.accounts ++ [(c, {})] }, ({} : Account)) := by
  unfold acct_mut
  rw [h]

theorem acct_mut_txs (c : ClientId) (e : Engine) : (acct_mut c e).1.txs = e.txs := by
  unfold acct_mut
  rcases h : lookupKey c e.accounts with _ | a <;> simp

theorem lookup_acct_mut_self (c : ClientId) (e : Engine) :
    lookupKey c (acct_mut c e).1.accounts = some (acct_mut c e).2 := by
  rcases h : lookupKey c e.accounts with _ | a
  · rw [acct_mut_of_none h]
    simp only
    rw [lookupKey_append_right _ h]
    exact lookupKey_singleton_self c ({} : Account)
  · rw [acct_mut_of_some h]
    exact h

theorem lookup_acct_mut_other {j c : ClientId} (e : Engine) (hne : j ≠ c) :
    lookupKey j (acct_mut c e).1.accounts = lookupKey j e.accounts := by
  rcases h : lookupKey c e.accounts with _ | a
  · rw [acct_mut_of_none h]
    simp only
    rcases hj : lookupKey j e.accounts with _ | b
    · rw [lookupKey_append_right _ hj]
      exact lookupKey_singleton_ne _ hne
    · exact lookupKey_append_left _ hj
  · rw [acct_mut_of_some h]

theorem acctOf_acct_mut (j c : ClientId) (e : Engine) :
    acctOf j (acct_mut c e).1 = acctOf j e := by
  by_cases hj : j = c
  · subst hj
    rcases h : lookupKey j e.accounts with _ | a
    · rw [acct_mut_of_none h]
      unfold acctOf
      simp only
      rw [lookupKey_append_right _ h, lookupKey_singleton_self, h]
      simp
    · rw [acct_mut_of_some h]
  · unfold acctOf
    rw [lookup_acct_mut_other e hj]

theorem acctOf_eq_acct_mut_snd (c : ClientId) (e : Engine) :
    acctOf c e = (acct_mut c e).2 := by
  rcases h : lookupKey c e.accounts with _ | a
  · rw [acct_mut_of_none h]
    unfold acctOf
    rw [h]
    simp
  · rw [acct_mut_of_some h]
    unfold acctOf
    rw [h]
    simp

theorem sumAcc_acct_mut (c : ClientId) (e : Engine) :
    sumAcc (acct_mut c e).1.accounts = sumAcc e.accounts := by
  rcases h : lookupKey c e.accounts with _ | a
  · rw [acct_mut_of_none h]
    simp [sumAcc_append]
  · rw [acct_mut_of_some h]

theorem disputeEligible_inv {cmd : DisputeCommand} {e : Engine} {amt : Amount}
    (h : disputeEligible cmd e = some amt) :
    ∃ r, lookupKey cmd.tx e.txs = some r ∧ r.client = cmd.client ∧
      r.kind = TxKind.Deposit ∧ r.state = DisputeState.Normal ∧ r.amount = amt := by
  rcases hl : lookupKey cmd.tx e.txs with _ | r
  · simp [disputeEligible, hl] at h
  · simp only [disputeEligible, hl] at h
    split at h
    · rename_i hc
      exact ⟨r, rfl, hc.1, hc.2.1, hc.2.2, Option.some_inj.mp h⟩
    · simp at h

theorem resolveEligible_inv {cmd : ResolveCommand} {e : Engine} {amt : Amount}
    (h : resolveEligible cmd e = some amt) :
    ∃ r, lookupKey cmd.tx e.txs = some r ∧ r.client = cmd.client ∧
      r.state = DisputeState.Disputed ∧ r.amount = amt := by
  rcases hl : lookupKey cmd.tx e.txs with _ | r
  · simp [resolveEligible, hl] at h
  · simp only [resolveEligible, hl] at h
    split at h
    · rename_i hc
      exact ⟨r, rfl, hc.1, hc.2, Option.some_inj.mp h⟩
    · simp at h

theorem chargebackEligible_inv {cmd : ChargebackCommand} {e : Engine} {amt : Amount}
    (h : chargebackEligible cmd e = some amt) :
    ∃ r, lookupKey cmd.tx e.txs = some r ∧ r.client = cmd.client ∧
      r.state = DisputeState.Disputed ∧ r.amount = amt := by
  rcases hl : lookupKey cmd.tx e.txs with _ | r
  · simp [chargebackEligible, hl] at h
  · simp only [chargebackEligible, hl] at h
    split at h
    · rename_i hc
      exact ⟨r, rfl, hc.1, hc.2, Option.some_inj.mp h⟩
    · simp at h

/-
Branch-by-branch equations for the five handlers.
-/

theorem deposit_dup {cmd : DepositCommand} {e : Engine}
    (h : (lookupKey cmd.tx e.txs).isSome = true) :
    process_deposit_command cmd e = (e, true) := by
  simp [process_deposit_command, h]

theorem deposit_locked {cmd : DepositCommand} {e : Engine}
    (h : (lookupKey cmd.tx e.txs).isSome = false)
    (hlk : (acct_mut cmd.client e).2.locked = true) :
    process_deposit_command cmd e = ((acct_mut cmd.client e).1, true) := by
  simp [process_deposit_command, h, hlk]

theorem deposit_addfail {cmd : DepositCommand} {e : Engine}
    (h : (lookupKey cmd.tx e.txs).isSome = false)
    (hlk : (acct_mut cmd.client e).2.locked = false)
    (hadd : checked_add (acct_mut cmd.client e).2.available cmd.amount = none) :
    process_deposit_command cmd e = ((acct_mut cmd.client e).1, false) := by
  simp [process_deposit_command, h, hlk, hadd]

theorem deposit_success {cmd : DepositCommand} {e : Engine} {v : Amount}
    (h : (lookupKey cmd.tx e.txs).isSome = false)
    (hlk : (acct_mut cmd.client e).2.locked = false)
    (hadd : checked_add (acct_mut cmd.client e).2.available cmd.amount = some v) :
    process_deposit_command cmd e =
      ({ accounts := updateKey cmd.client (fun a => { a with available := v })
           (acct_mut cmd.client e).1.accounts,
         txs := (acct_mut cmd.client e).1.txs ++
           [(cmd.tx, { client := cmd.client, kind := TxKind.Deposit,
                       amount := cmd.amount, state := DisputeState.Normal })] }, true) := by
  simp [process_deposit_command, h, hlk, hadd]

theorem withdrawal_dup {cmd : WithdrawalCommand} {e : Engine}
    (h : (lookupKey cmd.tx e.txs).isSome = true) :
    process_withdrawal_command cmd e = (e, true) := by
  simp [process_withdrawal_command, h]

theorem withdrawal_locked {cmd : WithdrawalCommand} {e : Engine}
    (h : (lookupKey cmd.tx e.txs).isSome = false)
    (hlk : (acct_mut cmd.client e).2.locked = true) :
    process_withdrawal_command cmd e = ((acct_mut cmd.client e).1, true) := by
  simp [process_withdrawal_command, h, hlk]

theorem withdrawal_insufficient {cmd : WithdrawalCommand} {e : Engine}
    (h : (lookupKey cmd.tx e.txs).isSome = false)
    (hlk : (acct_mut cmd.client e).2.locked = false)
    (hav : (acct_mut cmd.client e).2.available < cmd.amount) :
    process_withdrawal_command cmd e = ((acct_mut cmd.client e).1, true) := by
  simp [process_withdrawal_command, h, hlk, hav]

theorem withdrawal_subfail {cmd : WithdrawalCommand} {e : Engine}
    (h : (lookupKey cmd.tx e.txs).isSome = false)
    (hlk : (acct_mut cmd.client e).2.locked = false)
    (hav : ¬((acct_mut cmd.client e).2.available < cmd.amount))
    (hsub : checked_sub (acct_mut cmd.client e).2.available cmd.amount = none) :
    process_withdrawal_command cmd e = ((acct_mut cmd.client e).1, false) := by
  simp [process_withdrawal_command, h, hlk, hav, hsub]

theorem withdrawal_success {cmd : WithdrawalCommand} {e : Engine} {v : Amount}
    (h : (lookupKey cmd.tx e.txs).isSome = false)
    (hlk : (acct_mut cmd.client e).2.locked = false)
    (hav : ¬((acct_mut cmd.client e).2.available < cmd.amount))
    (hsub : checked_sub (acct_mut cmd.client e).2.available cmd.amount = some v) :
    process_withdrawal_command cmd e =
      ({ accounts := updateKey cmd.client (fun a => { a with available := v })
           (acct_mut cmd.client e).1.accounts,
         txs := (acct_mut cmd.client e).1.txs ++
           [(cmd.tx, { client := cmd.client, kind := TxKind.Withdrawal,
                       amount := cmd.amount, state := DisputeState.Normal })] }, true) := by
  simp [process_withdrawal_command, h, hlk, hav, hsub]

theorem dispute_inelig {cmd : DisputeCommand} {e : Engine}
    (h : disputeEligible cmd e = none) :
    process_dispute_command cmd e = (e, true) := by
  simp [process_dispute_command, h]

theorem dispute_insufficient {cmd : DisputeCommand} {e : Engine} {amt : Amount}
    (h : disputeEligible cmd e = some amt)
    (hav : (acct_mut cmd.client e).2.available < amt) :
    process_dispute_command cmd e = ((acct_mut cmd.client e).1, true) := by
  simp [process_dispute_command, h, hav]

theorem dispute_subfail {cmd : DisputeCommand} {e : Engine} {amt : Amount}
    (h : disputeEligible cmd e = some amt)
    (hav : ¬((acct_mut cmd.client e).2.available < amt))
    (hsub : checked_sub (acct_mut cmd.client e).2.available amt = none) :
    process_dispute_command cmd e = ((acct_mut cmd.client e).1, false) := by
  simp [process_dispute_command, h, hav, hsub]

theorem dispute_addfail {cmd : DisputeCommand} {e : Engine} {amt av : Amount}
    (h : disputeEligible cmd e = some amt)
    (hav : ¬((acct_mut cmd.client e).2.available < amt))
    (hsub : checked_sub (acct_mut cmd.client e).2.available amt = some av)
    (hadd : checked_add (acct_mut cmd.client e).2.held amt = none) :
    process_dispute_command cmd e =
      ({ accounts := updateKey cmd.client (fun a => { a with available := av })
           (acct_mut cmd.client e).1.accounts,
         txs := (acct_mut cmd.client e).1.txs }, false) := by
  simp [process_dispute_command, h, hav, hsub, hadd]

theorem dispute_success {cmd : DisputeCommand} {e : Engine} {amt av hd : Amount}
    (h : disputeEligible cmd e = some amt)
    (hav : ¬((acct_mut cmd.client e).2.available < amt))
    (hsub : checked_sub (acct_mut cmd.client e).2.available amt = some av)
    (hadd : checked_add (acct_mut cmd.client e).2.held amt = some hd) :
    process_dispute_command cmd e =
      ({ accounts := updateKey cmd.client (fun a => { a with held := hd })
           (updateKey cmd.client (fun a => { a with available := av })
             (acct_mut cmd.client e).1.accounts),
         txs := updateKey cmd.tx (fun r => { r with state := DisputeState.Disputed })
           (acct_mut cmd.client e).1.txs }, true) := by
  simp [process_dispute_command, h, hav, hsub, hadd]

theorem resolve_inelig {cmd : ResolveCommand} {e : Engine}
    (h : resolveEligible cmd e = none) :
    process_resolve_command cmd e = (e, true) := by
  simp [process_resolve_command, h]

theorem resolve_heldlow {cmd : ResolveCommand} {e : Engine} {amt : Amount}
    (h : resolveEligible cmd e = some amt)
    (hhl : (acct_mut cmd.client e).2.held < amt) :
    process_resolve_command cmd e = ((acct_mut cmd.client e).1, false) := by
  simp [process_resolve_command, h, hhl]

theorem resolve_subfail {cmd : ResolveCommand} {e : Engine} {amt : Amount}
    (h : resolveEligible cmd e = some amt)
    (hhl : ¬((acct_mut cmd.client e).2.held < amt))
    (hsub : checked_sub (acct_mut cmd.client e).2.held amt = none) :
    process_resolve_command cmd e = ((acct_mut cmd.client e).1, false) := by
  simp [process_resolve_command, h, hhl, hsub]

theorem resolve_addfail {cmd : ResolveCommand} {e : Engine} {amt hd : Amount}
    (h : resolveEligible cmd e = some amt)
    (hhl : ¬((acct_mut cmd.client e).2.held < amt))
    (hsub : checked_sub (acct_mut cmd.client e).2.held amt = some hd)
    (hadd : checked_add (acct_mut cmd.client e).2.available amt = none) :
    process_resolve_command cmd e =
      ({ accounts := updateKey cmd.client (fun a => { a with held := hd })
           (acct_mut cmd.client e).1.accounts,
         txs := (acct_mut cmd.client e).1.txs }, false) := by
  simp [process_resolve_command, h, hhl, hsub, hadd]

theorem resolve_success {cmd : ResolveCommand} {e : Engine} {amt hd av : Amount}
    (h : resolveEligible cmd e = some amt)
    (hhl : ¬((acct_mut cmd.client e).2.held < amt))
    (hsub : checked_sub (acct_mut cmd.client e).2.held amt = some hd)
    (hadd : checked_add (acct_mut cmd.client e).2.available amt = some av) :
    process_resolve_command cmd e =
      ({ accounts := updateKey cmd.client (fun a => { a with available := av })
           (updateKey cmd.client (fun a => { a with held := hd })
             (acct_mut cmd.client e).1.accounts),
         txs := updateKey cmd.tx (fun r => { r with state := DisputeState.Normal })
           (acct_mut cmd.client e).1.txs }, true) := by
  simp [process_resolve_command, h, hhl, hsub, hadd]

theorem chargeback_inelig {cmd : ChargebackCommand} {e : Engine}
    (h : chargebackEligible cmd e = none) :
    process_chargeback_command cmd e = (e, true) := by
  simp [process_chargeback_command, h]

theorem chargeback_subfail {cmd : ChargebackCommand} {e : Engine} {amt : Amount}
    (h : chargebackEligible cmd e = some amt)
    (hsub : checked_sub (acct_mut cmd.client e).2.held amt = none) :
    process_chargeback_command cmd e = ((acct_mut cmd.client e).1, false) := by
  simp [process_chargeback_command, h, hsub]

theorem chargeback_success {cmd : ChargebackCommand} {e : Engine} {amt hd : Amount}
    (h : chargebackEligible cmd e = some amt)
    (hsub : checked_sub (acct_mut cmd.client e).2.held amt = some hd) :
    process_chargeback_command cmd e =
      ({ accounts := updateKey cmd.client (fun a => { a with held := hd, locked := true })
           (acct_mut cmd.client e).1.accounts,
         txs := updateKey cmd.tx (fun r => { r with state := DisputeState.ChargedBack })
           (acct_mut cmd.client e).1.txs }, true) := by
  simp [process_chargeback_command, h, hsub]

/-
Claim C6 and claim C8, and the closed counterexamples for the corrected
claims.
-/

/-- C6: from the empty ledger, Deposit(1,100,5.0000) then Dispute(1,100) then
Resolve(1,100) yields available = 5.0000 and held = 0.0000 with the record
back in Normal state, and the resulting ledger state is identical to the
state after the deposit alone. -/
theorem dispute_resolve_round_trip :
    runList emptyEngine
        [Command.deposit 1 100 50000, Command.dispute 1 100, Command.resolve 1 100] =
      runList emptyEngine [Command.deposit 1 100 50000] ∧
    acctOf 1 (runList emptyEngine
        [Command.deposit 1 100 50000, Command.dispute 1 100, Command.resolve 1 100]) =
      { available := 50000, held := 0, locked := false } ∧
    lookupKey 100 (runList emptyEngine
        [Command.deposit 1 100 50000, Command.dispute 1 100, Command.resolve 1 100]).txs =
      some { client := 1, kind := TxKind.Deposit, amount := 50000,
             state := DisputeState.Normal } := by
  decide

/-- C8 (code bug): the derived total = available + held is NOT overflow
checked.  The account state available = i64Max, held = 1 is reachable from the
empty ledger by three commands that all return Ok, its exact total i64Max + 1
is not representable (checked_add refuses it), and Account::total silently
wraps it to i64Min instead of failing hard. -/
theorem total_unchecked_wraps :
    (runAllAux emptyEngine cmdsTotalWrap).2 = true ∧
    acctOf 1 (runAllAux emptyEngine cmdsTotalWrap).1 =
      { available := 9223372036854775807, held := 1, locked := false } ∧
    checked_add 9223372036854775807 1 = none ∧
    Account.total { available := 9223372036854775807, held := 1, locked := false } =
      -9223372036854775808 := by
  decide

/-- C1 counterexample: after cmdsConservationCx the sum of available + held
across all accounts strictly exceeds the sum of successfully applied deposit
amounts minus the sum of successfully applied withdrawal amounts, refuting
the conservation bound as stated. -/
theorem conservation_never_exceeds_cx :
    ¬ (sumTotals (runSums emptyEngine 0 0 cmdsConservationCx).1 ≤
        (runSums emptyEngine 0 0 cmdsConservationCx).2.1 -
        (runSums emptyEngine 0 0 cmdsConservationCx).2.2) := by
  decide

/-- C2 counterexample: a single deposit of the (parseable) negative amount
-0.0001 returns Ok and leaves the account's available balance negative. -/
theorem balances_nonneg_cx :
    (runAllAux emptyEngine [Command.deposit 1 1 (-1)]).2 = true ∧
    (acctOf 1 (runList emptyEngine [Command.deposit 1 1 (-1)])).available < 0 := by
  decide

/-- C4 counterexample: a withdrawal for a client with no account and amount
exceeding the zero balance is ineligible (insufficient funds) and returns
success, yet the ledger state is NOT exactly as before: the get-or-create
access inserted a default account for the client. -/
theorem ineligible_noop_cx :
    (process_withdrawal_command { client := 1, tx := 1, amount := 1 } emptyEngine).2 = true ∧
    ¬ ((process_withdrawal_command { client := 1, tx := 1, amount := 1 } emptyEngine).1 =
        emptyEngine) := by
  decide

/-- C10 counterexample: cmdsHeldCx consists of commands that all return
success, yet the checked subtraction performed by a subsequent chargeback of
the still-disputed transaction 1 underflows (held = -i64Max, amount = i64Max),
so the chargeback returns the hard Overflow error. -/
theorem held_matches_disputed_cx :
    (runAllAux emptyEngine cmdsHeldCx).2 = true ∧
    (acctOf 1 (runAllAux emptyEngine cmdsHeldCx).1).held = -9223372036854775807 ∧
    checked_sub (acctOf 1 (runAllAux emptyEngine cmdsHeldCx).1).held
      (9223372036854775807 : Int) = none ∧
    (process_chargeback_command { client := 1, tx := 1 }
        (runAllAux emptyEngine cmdsHeldCx).1).2 = false := by
  decide

/-- C9 counterexample: the integer part "-5" of "--5" and the fractional part
"0000a" of "1.0000a" both contain non-digit characters, yet parse_4dp accepts
both inputs (the second even rounds up on the byte 'a'), refuting the claimed
error taxonomy. -/
theorem parse_taxonomy_cx :
    parse_4dp ['-', '-', '5'] = Except.ok 50000 ∧
    parse_4dp ['1', '.', '0', '0', '0', '0', 'a'] = Except.ok 10001 := by
  exact ⟨rfl, rfl⟩

/-
Claim C7: idempotence of a repeated deposit, and duplicate-TxId rejection.
-/

/-- C7: applying the same deposit twice, from any state, yields exactly the
state (and outcome) of applying it once; and a deposit or withdrawal whose
TxId is already present in the transaction map is a silent success that
changes nothing. -/
theorem duplicate_deposit_idempotent :
    (∀ (cmd : DepositCommand) (e : Engine),
      process_deposit_command cmd (process_deposit_command cmd e).1 =
        process_deposit_command cmd e) ∧
    (∀ (cmd : DepositCommand) (e : Engine), (lookupKey cmd.tx e.txs).isSome = true →
      process_deposit_command cmd e = (e, true)) ∧
    (∀ (cmd : WithdrawalCommand) (e : Engine), (lookupKey cmd.tx e.txs).isSome = true →
      process_withdrawal_command cmd e = (e, true)) := by
  refine ⟨?_, fun cmd e h => deposit_dup h, fun cmd e h => withdrawal_dup h⟩
  intro cmd e
  by_cases h : (lookupKey cmd.tx e.txs).isSome = true
  · rw [deposit_dup h]
    exact deposit_dup h
  · have h' : (lookupKey cmd.tx e.txs).isSome = false := by
      revert h
      cases (lookupKey cmd.tx e.txs).isSome <;> simp
    have htx1 : (lookupKey cmd.tx (acct_mut cmd.client e).1.txs).isSome = false := by
      rw [acct_mut_txs]
      exact h'
    have hacct1 : acct_mut cmd.client (acct_mut cmd.client e).1 =
        ((acct_mut cmd.client e).1, (acct_mut cmd.client e).2) :=
      acct_mut_of_some (lookup_acct_mut_self _ _)
    have hnone : lookupKey cmd.tx e.txs = none := by
      revert h'
      rcases lookupKey cmd.tx e.txs with _ | v <;> simp
    by_cases hlk : (acct_mut cmd.client e).2.locked = true
    · rw [deposit_locked h' hlk]
      have hlk1 : (acct_mut cmd.client (acct_mut cmd.client e).1).2.locked = true := by
        rw [hacct1]
        exact hlk
      rw [deposit_locked htx1 hlk1, hacct1]
    · have hlkf : (acct_mut cmd.client e).2.locked = false := by
        revert hlk
        cases (acct_mut cmd.client e).2.locked <;> simp
      rcases hadd : checked_add (acct_mut cmd.client e).2.available cmd.amount with _ | v
      · rw [deposit_addfail h' hlkf hadd]
        have hlk1 : (acct_mut cmd.client (acct_mut cmd.client e).1).2.locked = false := by
          rw [hacct1]
          exact hlkf
        have hadd1 : checked_add
            (acct_mut cmd.client (acct_mut cmd.client e).1).2.available cmd.amount = none := by
          rw [hacct1]
          exact hadd
        rw [deposit_addfail htx1 hlk1 hadd1, hacct1]
      · rw [deposit_success h' hlkf hadd]
        have hdup2 : (lookupKey cmd.tx
            ({ accounts := updateKey cmd.client (fun a => { a with available := v })
                 (acct_mut cmd.client e).1.accounts,
               txs := (acct_mut cmd.client e).1.txs ++
                 [(cmd.tx, { client := cmd.client, kind := TxKind.Deposit,
                             amount := cmd.amount, state := DisputeState.Normal })] } :
              Engine).txs).isSome = true := by
          simp only
          rw [lookupKey_append_right _ (by rw [acct_mut_txs]; exact hnone),
            lookupKey_singleton_self]
          rfl
        exact deposit_dup hdup2

/-- Witness for duplicate_deposit_idempotent at concrete inputs. -/
theorem duplicate_deposit_idempotent_witness :
    process_deposit_command { client := 1, tx := 2, amount := 3 }
        (process_deposit_command { client := 1, tx := 2, amount := 3 } emptyEngine).1 =
      process_deposit_command { client := 1, tx := 2, amount := 3 } emptyEngine ∧
    process_deposit_command { client := 1, tx := 1, amount := 5 }
        (runList emptyEngine [Command.deposit 1 1 7]) =
      (runList emptyEngine [Command.deposit 1 1 7], true) ∧
    process_withdrawal_command { client := 2, tx := 1, amount := 5 }
        (runList emptyEngine [Command.deposit 1 1 7]) =
      (runList emptyEngine [Command.deposit 1 1 7], true) :=
  ⟨duplicate_deposit_idempotent.1 _ _,
   duplicate_deposit_idempotent.2.1 _ _ (by decide),
   duplicate_deposit_idempotent.2.2 _ _ (by decide)⟩

/-
Claim C5: terminality of ChargedBack and the one-way locked latch.
-/

/-- A looked-up account survives acct_mut for any client, unchanged. -/
theorem lookup_some_acct_mut {c : ClientId} {e : Engine} {acc : Account} (cl : ClientId)
    (hl : lookupKey c e.accounts = some acc) :
    lookupKey c (acct_mut cl e).1.accounts = some acc := by
  by_cases hc : c = cl
  · subst hc
    rw [lookup_acct_mut_self, acct_mut_of_some hl]
  · rw [lookup_acct_mut_other e hc]
    exact hl

/-- A ChargedBack record is never looked at again: every command leaves it
exactly as it is. -/
theorem record_terminal_step (cmd : Command) (e : Engine) {tx : TxId} {r : TxRecord}
    (hl : lookupKey tx e.txs = some r) (hst : r.state = DisputeState.ChargedBack) :
    lookupKey tx (step cmd e).1.txs = some r := by
  cases cmd with
  | deposit cl t a =>
    simp only [step]
    by_cases hdup : (lookupKey t e.txs).isSome = true
    · rw [deposit_dup hdup]
      exact hl
    · have h' : (lookupKey t e.txs).isSome = false := by
        revert hdup; cases (lookupKey t e.txs).isSome <;> simp
      by_cases hlkd : (acct_mut cl e).2.locked = true
      · rw [deposit_locked h' hlkd]
        rw [acct_mut_txs]
        exact hl
      · have hlkf : (acct_mut cl e).2.locked = false := by
          revert hlkd; cases (acct_mut cl e).2.locked <;> simp
        rcases hadd : checked_add (acct_mut cl e).2.available a with _ | v
        · rw [deposit_addfail h' hlkf hadd]
          rw [acct_mut_txs]
          exact hl
        · rw [deposit_success h' hlkf hadd]
          simp only
          exact lookupKey_append_left _ (by rw [acct_mut_txs]; exact hl)
  | withdrawal cl t a =>
    simp only [step]
    by_cases hdup : (lookupKey t e.txs).isSome = true
    · rw [withdrawal_dup hdup]
      exact hl
    · have h' : (lookupKey t e.txs).isSome = false := by
        revert hdup; cases (lookupKey t e.txs).isSome <;> simp
      by_cases hlkd : (acct_mut cl e).2.locked = true
      · rw [withdrawal_locked h' hlkd]
        rw [acct_mut_txs]
        exact hl
      · have hlkf : (acct_mut cl e).2.locked = false := by
          revert hlkd; cases (acct_mut cl e).2.locked <;> simp
        by_cases hav : (acct_mut cl e).2.available < a
        · rw [withdrawal_insufficient h' hlkf hav]
          rw [acct_mut_txs]
          exact hl
        · rcases hsub : checked_sub (acct_mut cl e).2.available a with _ | v
          · rw [withdrawal_subfail h' hlkf hav hsub]
            rw [acct_mut_txs]
            exact hl
          · rw [withdrawal_success h' hlkf hav hsub]
            simp only
            exact lookupKey_append_left _ (by rw [acct_mut_txs]; exact hl)
  | dispute cl t =>
    simp only [step]
    rcases helig : disputeEligible { client := cl, tx := t } e with _ | amt
    · rw [dispute_inelig helig]
      exact hl
    · obtain ⟨r2, hr2, hcl2, hkind2, hnorm2, hamt2⟩ := disputeEligible_inv helig
      have htne : t ≠ tx := by
        intro hEq
        rw [hEq, hl] at hr2
        have hrr := Option.some_inj.mp hr2
        rw [← hrr, hst] at hnorm2
        simp at hnorm2
      by_cases hav : (acct_mut cl e).2.available < amt
      · rw [dispute_insufficient helig hav]
        rw [acct_mut_txs]
        exact hl
      · rcases hsub : checked_sub (acct_mut cl e).2.available amt with _ | av
        · rw [dispute_subfail helig hav hsub]
          rw [acct_mut_txs]
          exact hl
        · rcases hadd : checked_add (acct_mut cl e).2.held amt with _ | hd
          · rw [dispute_addfail helig hav hsub hadd]
            simp only
            rw [acct_mut_txs]
            exact hl
          · rw [dispute_success helig hav hsub hadd]
            simp only
            rw [lookupKey_updateKey_ne _ _ (Ne.symm htne), acct_mut_txs]
            exact hl
  | resolve cl t =>
    simp only [step]
    rcases helig : resolveEligible { client := cl, tx := t } e with _ | amt
    · rw [resolve_inelig helig]
      exact hl
    · obtain ⟨r2, hr2, hcl2, hdisp2, hamt2⟩ := resolveEligible_inv helig
      have htne : t ≠ tx := by
        intro hEq
        rw [hEq, hl] at hr2
        have hrr := Option.some_inj.mp hr2
        rw [← hrr, hst] at hdisp2
        simp at hdisp2
      by_cases hhl : (acct_mut cl e).2.held < amt
      · rw [resolve_heldlow helig hhl]
        rw [acct_mut_txs]
        exact hl
      · rcases hsub : checked_sub (acct_mut cl e).2.held amt with _ | hd
        · rw [resolve_subfail helig hhl hsub]
          rw [acct_mut_txs]
          exact hl
        · rcases hadd : checked_add (acct_mut cl e).2.available amt with _ | av
          · rw [resolve_addfail helig hhl hsub hadd]
            simp only
            rw [acct_mut_txs]
            exact hl
          · rw [resolve_success helig hhl hsub hadd]
            simp only
            rw [lookupKey_updateKey_ne _ _ (Ne.symm htne), acct_mut_txs]
            exact hl
  | chargeback cl t =>
    simp only [step]
    rcases helig : chargebackEligible { client := cl, tx := t } e with _ | amt
    · rw [chargeback_inelig helig]
      exact hl
    · obtain ⟨r2, hr2, hcl2, hdisp2, hamt2⟩ := chargebackEligible_inv helig
      have htne : t ≠ tx := by
        intro hEq
        rw [hEq, hl] at hr2
        have hrr := Option.some_inj.mp hr2
        rw [← hrr, hst] at hdisp2
        simp at hdisp2
      rcases hsub : checked_sub (acct_mut cl e).2.held amt with _ | hd
      · rw [chargeback_subfail helig hsub]
        rw [acct_mut_txs]
        exact hl
      · rw [chargeback_success helig hsub]
        simp only
        rw [lookupKey_updateKey_ne _ _ (Ne.symm htne), acct_mut_txs]
        exact hl

/-- The locked flag is a one-way latch: no command ever clears it. -/
theorem locked_latch_step (cmd : Command) (e : Engine) {c : ClientId} {acc : Account}
    (hl : lookupKey c e.accounts = some acc) (hlk : acc.locked = true) :
    ∃ acc', lookupKey c (step cmd e).1.accounts = some acc' ∧ acc'.locked = true := by
  cases cmd with
  | deposit cl t a =>
    simp only [step]
    by_cases hdup : (lookupKey t e.txs).isSome = true
    · rw [deposit_dup hdup]
      exact ⟨acc, hl, hlk⟩
    · have h' : (lookupKey t e.txs).isSome = false := by
        revert hdup; cases (lookupKey t e.txs).isSome <;> simp
      have hme : lookupKey c (acct_mut cl e).1.accounts = some acc := lookup_some_acct_mut cl hl
      by_cases hlkd : (acct_mut cl e).2.locked = true
      · rw [deposit_locked h' hlkd]
        exact ⟨acc, hme, hlk⟩
      · have hlkf : (acct_mut cl e).2.locked = false := by
          revert hlkd; cases (acct_mut cl e).2.locked <;> simp
        rcases hadd : checked_add (acct_mut cl e).2.available a with _ | v
        · rw [deposit_addfail h' hlkf hadd]
          exact ⟨acc, hme, hlk⟩
        · rw [deposit_success h' hlkf hadd]
          by_cases hc : c = cl
          · subst hc
            refine ⟨{ acc with available := v }, ?_, hlk⟩
            simp only
            rw [lookupKey_updateKey_self, hme]
            rfl
          · refine ⟨acc, ?_, hlk⟩
            simp only
            rw [lookupKey_updateKey_ne _ _ hc]
            exact hme
  | withdrawal cl t a =>
    simp only [step]
    by_cases hdup : (lookupKey t e.txs).isSome = true
    · rw [withdrawal_dup hdup]
      exact ⟨acc, hl, hlk⟩
    · have h' : (lookupKey t e.txs).isSome = false := by
        revert hdup; cases (lookupKey t e.txs).isSome <;> simp
      have hme : lookupKey c (acct_mut cl e).1.accounts = some acc := lookup_some_acct_mut cl hl
      by_cases hlkd : (acct_mut cl e).2.locked = true
      · rw [withdrawal_locked h' hlkd]
        exact ⟨acc, hme, hlk⟩
      · have hlkf : (acct_mut cl e).2.locked = false := by
          revert hlkd; cases (acct_mut cl e).2.locked <;> simp
        by_cases hav : (acct_mut cl e).2.available < a
        · rw [withdrawal_insufficient h' hlkf hav]
          exact ⟨acc, hme, hlk⟩
        · rcases hsub : checked_sub (acct_mut cl e).2.available a with _ | v
          · rw [withdrawal_subfail h' hlkf hav hsub]
            exact ⟨acc, hme, hlk⟩
          · rw [withdrawal_success h' hlkf hav hsub]
            by_cases hc : c = cl
            · subst hc
              refine ⟨{ acc with available := v }, ?_, hlk⟩
              simp only
              rw [lookupKey_updateKey_self, hme]
              rfl
            · refine ⟨acc, ?_, hlk⟩
              simp only
              rw [lookupKey_updateKey_ne _ _ hc]
              exact hme
  | dispute cl t =>
    simp only [step]
    rcases helig : disputeEligible { client := cl, tx := t } e with _ | amt
    · rw [dispute_inelig helig]
      exact ⟨acc, hl, hlk⟩
    · have hme : lookupKey c (acct_mut cl e).1.accounts = some acc := lookup_some_acct_mut cl hl
      by_cases hav : (acct_mut cl e).2.available < amt
      · rw [dispute_insufficient helig hav]
        exact ⟨acc, hme, hlk⟩
      · rcases hsub : checked_sub (acct_mut cl e).2.available amt with _ | av
        · rw [dispute_subfail helig hav hsub]
          exact ⟨acc, hme, hlk⟩
        · rcases hadd : checked_add (acct_mut cl e).2.held amt with _ | hd
          · rw [dispute_addfail helig hav hsub hadd]
            by_cases hc : c = cl
            · subst hc
              refine ⟨{ acc with available := av }, ?_, hlk⟩
              simp only
              rw [lookupKey_updateKey_self, hme]
              rfl
            · refine ⟨acc, ?_, hlk⟩
              simp only
              rw [lookupKey_updateKey_ne _ _ hc]
              exact hme
          · rw [dispute_success helig hav hsub hadd]
            by_cases hc : c = cl
            · subst hc
              refine ⟨{ { acc with available := av } with held := hd }, ?_, hlk⟩
              simp only
              rw [lookupKey_updateKey_self, lookupKey_updateKey_self, hme]
              rfl
            · refine ⟨acc, ?_, hlk⟩
              simp only
              rw [lookupKey_updateKey_ne _ _ hc, lookupKey_updateKey_ne _ _ hc]
              exact hme
  | resolve cl t =>
    simp only [step]
    rcases helig : resolveEligible { client := cl, tx := t } e with _ | amt
    · rw [resolve_inelig helig]
      exact ⟨acc, hl, hlk⟩
    · have hme : lookupKey c (acct_mut cl e).1.accounts = some acc := lookup_some_acct_mut cl hl
      by_cases hhl : (acct_mut cl e).2.held < amt
      · rw [resolve_heldlow helig hhl]
        exact ⟨acc, hme, hlk⟩
      · rcases hsub : checked_sub (acct_mut cl e).2.held amt with _ | hd
        · rw [resolve_subfail helig hhl hsub]
          exact ⟨acc, hme, hlk⟩
        · rcases hadd : checked_add (acct_mut cl e).2.available amt with _ | av
          · rw [resolve_addfail helig hhl hsub hadd]
            by_cases hc : c = cl
            · subst hc
              refine ⟨{ acc with held := hd }, ?_, hlk⟩
              simp only
              rw [lookupKey_updateKey_self, hme]
              rfl
            · refine ⟨acc, ?_, hlk⟩
              simp only
              rw [lookupKey_updateKey_ne _ _ hc]
              exact hme
          · rw [resolve_success helig hhl hsub hadd]
            by_cases hc : c = cl
            · subst hc
              refine ⟨{ { acc with held := hd } with available := av }, ?_, hlk⟩
              simp only
              rw [lookupKey_updateKey_self, lookupKey_updateKey_self, hme]
              rfl
            · refine ⟨acc, ?_, hlk⟩
              simp only
              rw [lookupKey_updateKey_ne _ _ hc, lookupKey_updateKey_ne _ _ hc]
              exact hme
  | chargeback cl t =>
    simp only [step]
    rcases helig : chargebackEligible { client := cl, tx := t } e with _ | amt
    · rw [chargeback_inelig helig]
      exact ⟨acc, hl, hlk⟩
    · have hme : lookupKey c (acct_mut cl e).1.accounts = some acc := lookup_some_acct_mut cl hl
      rcases hsub : checked_sub (acct_mut cl e).2.held amt with _ | hd
      · rw [chargeback_subfail helig hsub]
        exact ⟨acc, hme, hlk⟩
      · rw [chargeback_success helig hsub]
        by_cases hc : c = cl
        · subst hc
          refine ⟨{ acc with held := hd, locked := true }, ?_, rfl⟩
          simp only
          rw [lookupKey_updateKey_self, hme]
          rfl
        · refine ⟨acc, ?_, hlk⟩
          simp only
          rw [lookupKey_updateKey_ne _ _ hc]
          exact hme

/-- C5: a successful chargeback puts the record into the terminal ChargedBack
state and locks the account; a ChargedBack record makes every later dispute or
resolve of that transaction an exact no-op returning success; a ChargedBack
record survives any later command sequence unchanged; and a locked account
stays locked forever. -/
theorem chargeback_terminality :
    (∀ (cmd : ChargebackCommand) (e : Engine) (r : TxRecord),
      lookupKey cmd.tx e.txs = some r → r.client = cmd.client →
      r.state = DisputeState.Disputed → (process_chargeback_command cmd e).2 = true →
      lookupKey cmd.tx (process_chargeback_command cmd e).1.txs =
        some { r with state := DisputeState.ChargedBack } ∧
      ∃ acc', lookupKey cmd.client (process_chargeback_command cmd e).1.accounts =
          some acc' ∧ acc'.locked = true) ∧
    (∀ (cmd : DisputeCommand) (e : Engine) (r : TxRecord),
      lookupKey cmd.tx e.txs = some r → r.state = DisputeState.ChargedBack →
      process_dispute_command cmd e = (e, true)) ∧
    (∀ (cmd : ResolveCommand) (e : Engine) (r : TxRecord),
      lookupKey cmd.tx e.txs = some r → r.state = DisputeState.ChargedBack →
      process_resolve_command cmd e = (e, true)) ∧
    (∀ (cmds : List Command) (e : Engine) (tx : TxId) (r : TxRecord),
      lookupKey tx e.txs = some r → r.state = DisputeState.ChargedBack →
      lookupKey tx (runList e cmds).txs = some r) ∧
    (∀ (cmds : List Command) (e : Engine) (c : ClientId) (acc : Account),
      lookupKey c e.accounts = some acc → acc.locked = true →
      ∃ acc', lookupKey c (runList e cmds).accounts = some acc' ∧ acc'.locked = true) := by
  refine ⟨?_, ?_, ?_, ?_, ?_⟩
  · intro cmd e r hl hcl hdisp hsucc
    have helig : chargebackEligible cmd e = some r.amount := by
      simp [chargebackEligible, hl, hcl, hdisp]
    rcases hsub : checked_sub (acct_mut cmd.client e).2.held r.amount with _ | hd
    · rw [chargeback_subfail helig hsub] at hsucc
      simp at hsucc
    · rw [chargeback_success helig hsub]
      constructor
      · simp only
        rw [lookupKey_updateKey_self, acct_mut_txs, hl]
        rfl
      · refine ⟨{ (acct_mut cmd.client e).2 with held := hd, locked := true }, ?_, rfl⟩
        simp only
        rw [lookupKey_updateKey_self, lookup_acct_mut_self]
        rfl
  · intro cmd e r hl hst
    have helig : disputeEligible cmd e = none := by
      simp [disputeEligible, hl, hst]
    exact dispute_inelig helig
  · intro cmd e r hl hst
    have helig : resolveEligible cmd e = none := by
      simp [resolveEligible, hl, hst]
    exact resolve_inelig helig
  · intro cmds
    induction cmds with
    | nil => intro e tx r hl _ ; exact hl
    | cons cd cs ih =>
      intro e tx r hl hst
      exact ih _ _ _ (record_terminal_step cd e hl hst) hst
  · intro cmds
    induction cmds with
    | nil => intro e c acc hl hlk; exact ⟨acc, hl, hlk⟩
    | cons cd cs ih =>
      intro e c acc hl hlk
      obtain ⟨acc', hm, hk⟩ := locked_latch_step cd e hl hlk
      exact ih _ _ _ hm hk

/-- Witness for chargeback_terminality at concrete inputs. -/
theorem chargeback_terminality_witness :
    (lookupKey 1 (runList emptyEngine
        [Command.deposit 1 1 50000, Command.dispute 1 1, Command.chargeback 1 1]).txs =
      some { client := 1, kind := TxKind.Deposit, amount := 50000,
             state := DisputeState.ChargedBack } ∧
     ∃ acc', lookupKey 1 (runList emptyEngine
        [Command.deposit 1 1 50000, Command.dispute 1 1, Command.chargeback 1 1]).accounts =
          some acc' ∧ acc'.locked = true) ∧
    process_dispute_command { client := 1, tx := 1 }
        (runList emptyEngine
          [Command.deposit 1 1 50000, Command.dispute 1 1, Command.chargeback 1 1]) =
      (runList emptyEngine
          [Command.deposit 1 1 50000, Command.dispute 1 1, Command.chargeback 1 1], true) ∧
    process_resolve_command { client := 1, tx := 1 }
        (runList emptyEngine
          [Command.deposit 1 1 50000, Command.dispute 1 1, Command.chargeback 1 1]) =
      (runList emptyEngine
          [Command.deposit 1 1 50000, Command.dispute 1 1, Command.chargeback 1 1], true) := by
  have hrec : lookupKey 1 (runList emptyEngine
      [Command.deposit 1 1 50000, Command.dispute 1 1, Command.chargeback 1 1]).txs =
      some { client := 1, kind := TxKind.Deposit, amount := 50000,
             state := DisputeState.ChargedBack } := by decide
  refine ⟨?_, chargeback_terminality.2.1 _ _ _ hrec rfl, chargeback_terminality.2.2.1 _ _ _ hrec rfl⟩
  have h1 := chargeback_terminality.1 { client := 1, tx := 1 }
    (runList emptyEngine [Command.deposit 1 1 50000, Command.dispute 1 1])
    { client := 1, kind := TxKind.Deposit, amount := 50000, state := DisputeState.Disputed }
    (by decide) rfl rfl (by decide)
  exact h1

/-
Claim C4: ineligible commands are silent successes; the only state change any
of them can make is the get-or-create insertion of a default account.
-/

/-- acct_mut either leaves the engine unchanged or appends exactly one fresh
default account for the requested client. -/
theorem acct_mut_cases (c : ClientId) (e : Engine) :
    (acct_mut c e).1 = e ∨ (acct_mut c e).1.accounts = e.accounts ++ [(c, ({} : Account))] := by
  rcases h : lookupKey c e.accounts with _ | a
  · right
    rw [acct_mut_of_none h]
  · left
    rw [acct_mut_of_some h]

/-- C4 (amended): each ineligibility (duplicate tx, locked account,
insufficient funds, wrong client / kind / record state) makes the handler
return success; the transaction map and all existing accounts are untouched;
and the state is exactly as before except that the insufficient-funds paths of
withdrawal and dispute may have inserted the command client's fresh default
account (zero balances, unlocked) through the get-or-create access. -/
theorem ineligible_noop_amended :
    (∀ (cmd : DepositCommand) (e : Engine), (lookupKey cmd.tx e.txs).isSome = true →
      process_deposit_command cmd e = (e, true)) ∧
    (∀ (cmd : DepositCommand) (e : Engine) (acc : Account),
      lookupKey cmd.client e.accounts = some acc → acc.locked = true →
      process_deposit_command cmd e = (e, true)) ∧
    (∀ (cmd : WithdrawalCommand) (e : Engine), (lookupKey cmd.tx e.txs).isSome = true →
      process_withdrawal_command cmd e = (e, true)) ∧
    (∀ (cmd : WithdrawalCommand) (e : Engine) (acc : Account),
      lookupKey cmd.client e.accounts = some acc → acc.locked = true →
      process_withdrawal_command cmd e = (e, true)) ∧
    (∀ (cmd : WithdrawalCommand) (e : Engine),
      (lookupKey cmd.tx e.txs).isSome = false →
      (acct_mut cmd.client e).2.locked = false →
      (acct_mut cmd.client e).2.available < cmd.amount →
      process_withdrawal_command cmd e = ((acct_mut cmd.client e).1, true) ∧
      ((acct_mut cmd.client e).1 = e ∨
        (acct_mut cmd.client e).1.accounts = e.accounts ++ [(cmd.client, ({} : Account))])) ∧
    (∀ (cmd : DisputeCommand) (e : Engine), disputeEligible cmd e = none →
      process_dispute_command cmd e = (e, true)) ∧
    (∀ (cmd : DisputeCommand) (e : Engine) (amt : Amount),
      disputeEligible cmd e = some amt →
      (acct_mut cmd.client e).2.available < amt →
      process_dispute_command cmd e = ((acct_mut cmd.client e).1, true) ∧
      ((acct_mut cmd.client e).1 = e ∨
        (acct_mut cmd.client e).1.accounts = e.accounts ++ [(cmd.client, ({} : Account))])) ∧
    (∀ (cmd : ResolveCommand) (e : Engine), resolveEligible cmd e = none →
      process_resolve_command cmd e = (e, true)) ∧
    (∀ (cmd : ChargebackCommand) (e : Engine), chargebackEligible cmd e = none →
      process_chargeback_command cmd e = (e, true)) := by
  refine ⟨fun cmd e h => deposit_dup h, ?_, fun cmd e h => withdrawal_dup h, ?_,
    ?_, fun cmd e h => dispute_inelig h, ?_,
    fun cmd e h => resolve_inelig h, fun cmd e h => chargeback_inelig h⟩
  · intro cmd e acc hacc hlk
    by_cases hdup : (lookupKey cmd.tx e.txs).isSome = true
    · exact deposit_dup hdup
    · have h' : (lookupKey cmd.tx e.txs).isSome = false := by
        revert hdup; cases (lookupKey cmd.tx e.txs).isSome <;> simp
      have ham := acct_mut_of_some hacc
      have hlkd : (acct_mut cmd.client e).2.locked = true := by
        rw [ham]; exact hlk
      rw [deposit_locked h' hlkd, ham]
  · intro cmd e acc hacc hlk
    by_cases hdup : (lookupKey cmd.tx e.txs).isSome = true
    · exact withdrawal_dup hdup
    · have h' : (lookupKey cmd.tx e.txs).isSome = false := by
        revert hdup; cases (lookupKey cmd.tx e.txs).isSome <;> simp
      have ham := acct_mut_of_some hacc
      have hlkd : (acct_mut cmd.client e).2.locked = true := by
        rw [ham]; exact hlk
      rw [withdrawal_locked h' hlkd, ham]
  · intro cmd e h hlk hav
    exact ⟨withdrawal_insufficient h hlk hav, acct_mut_cases cmd.client e⟩
  · intro cmd e amt helig hav
    exact ⟨dispute_insufficient helig hav, acct_mut_cases cmd.client e⟩

/-- Witness for ineligible_noop_amended at concrete inputs. -/
theorem ineligible_noop_amended_witness :
    process_deposit_command { client := 1, tx := 1, amount := 5 }
        (runList emptyEngine [Command.deposit 1 1 50000]) =
      (runList emptyEngine [Command.deposit 1 1 50000], true) ∧
    process_deposit_command { client := 1, tx := 9, amount := 5 }
        (runList emptyEngine
          [Command.deposit 1 1 50000, Command.dispute 1 1, Command.chargeback 1 1]) =
      (runList emptyEngine
          [Command.deposit 1 1 50000, Command.dispute 1 1, Command.chargeback 1 1], true) ∧
    process_withdrawal_command { client := 1, tx := 1, amount := 5 }
        (runList emptyEngine [Command.deposit 1 1 50000]) =
      (runList emptyEngine [Command.deposit 1 1 50000], true) ∧
    process_withdrawal_command { client := 1, tx := 9, amount := 5 }
        (runList emptyEngine
          [Command.deposit 1 1 50000, Command.dispute 1 1, Command.chargeback 1 1]) =
      (runList emptyEngine
          [Command.deposit 1 1 50000, Command.dispute 1 1, Command.chargeback 1 1], true) ∧
    (process_withdrawal_command { client := 7, tx := 3, amount := 10 } emptyEngine =
      ((acct_mut 7 emptyEngine).1, true) ∧
     ((acct_mut 7 emptyEngine).1 = emptyEngine ∨
       (acct_mut 7 emptyEngine).1.accounts = emptyEngine.accounts ++ [(7, ({} : Account))])) ∧
    process_dispute_command { client := 1, tx := 42 } emptyEngine = (emptyEngine, true) ∧
    (process_dispute_command { client := 1, tx := 1 }
        (runList emptyEngine [Command.deposit 1 1 50000, Command.withdrawal 1 2 40000]) =
      ((acct_mut 1 (runList emptyEngine
          [Command.deposit 1 1 50000, Command.withdrawal 1 2 40000])).1, true) ∧
     ((acct_mut 1 (runList emptyEngine
          [Command.deposit 1 1 50000, Command.withdrawal 1 2 40000])).1 =
        runList emptyEngine [Command.deposit 1 1 50000, Command.withdrawal 1 2 40000] ∨
       (acct_mut 1 (runList emptyEngine
          [Command.deposit 1 1 50000, Command.withdrawal 1 2 40000])).1.accounts =
        (runList emptyEngine
          [Command.deposit 1 1 50000, Command.withdrawal 1 2 40000]).accounts ++ [(1, ({} : Account))])) ∧
    process_resolve_command { client := 1, tx := 42 } emptyEngine = (emptyEngine, true) ∧
    process_chargeback_command { client := 1, tx := 42 } emptyEngine = (emptyEngine, true) :=
  ⟨ineligible_noop_amended.1 _ _ (by decide),
   ineligible_noop_amended.2.1 _ _ { available := 0, held := 0, locked := true }
     (by decide) rfl,
   ineligible_noop_amended.2.2.1 _ _ (by decide),
   ineligible_noop_amended.2.2.2.1 _ _ { available := 0, held := 0, locked := true }
     (by decide) rfl,
   ineligible_noop_amended.2.2.2.2.1 _ _ (by decide) (by decide) (by decide),
   ineligible_noop_amended.2.2.2.2.2.1 _ _ (by decide),
   ineligible_noop_amended.2.2.2.2.2.2.1 _ _ 50000 (by decide) (by decide),
   ineligible_noop_amended.2.2.2.2.2.2.2.1 _ _ (by decide),
   ineligible_noop_amended.2.2.2.2.2.2.2.2 _ _ (by decide)⟩

/-
Claim C3: locked gates only Deposit/Withdrawal; Dispute/Resolve/Chargeback
never read the locked flag.
-/

/-- A locked account makes a deposit an exact no-op returning success. -/
theorem deposit_locked_noop (cmd : DepositCommand) (e : Engine) (acc : Account)
    (hacc : lookupKey cmd.client e.accounts = some acc) (hlk : acc.locked = true) :
    process_deposit_command cmd e = (e, true) := by
  by_cases hdup : (lookupKey cmd.tx e.txs).isSome = true
  · exact deposit_dup hdup
  · have h' : (lookupKey cmd.tx e.txs).isSome = false := by
      revert hdup; cases (lookupKey cmd.tx e.txs).isSome <;> simp
    have ham := acct_mut_of_some hacc
    have hlkd : (acct_mut cmd.client e).2.locked = true := by
      rw [ham]; exact hlk
    rw [deposit_locked h' hlkd, ham]

/-- A locked account makes a withdrawal an exact no-op returning success. -/
theorem withdrawal_locked_noop (cmd : WithdrawalCommand) (e : Engine) (acc : Account)
    (hacc : lookupKey cmd.client e.accounts = some acc) (hlk : acc.locked = true) :
    process_withdrawal_command cmd e = (e, true) := by
  by_cases hdup : (lookupKey cmd.tx e.txs).isSome = true
  · exact withdrawal_dup hdup
  · have h' : (lookupKey cmd.tx e.txs).isSome = false := by
      revert hdup; cases (lookupKey cmd.tx e.txs).isSome <;> simp
    have ham := acct_mut_of_some hacc
    have hlkd : (acct_mut cmd.client e).2.locked = true := by
      rw [ham]; exact hlk
    rw [withdrawal_locked h' hlkd, ham]

theorem updateKey_double_congr (f1 f2 g1 g2 : Account → Account) (k : ClientId)
    (l : List (ClientId × Account)) (h : ∀ x, f1 (f2 x) = g1 (g2 x)) :
    updateKey k f1 (updateKey k f2 l) = updateKey k g1 (updateKey k g2 l) := by
  rw [updateKey_updateKey, updateKey_updateKey]
  exact updateKey_congr _ _ h

theorem updateKey_triple_congr (f1 f2 f3 g1 g2 g3 : Account → Account) (k : ClientId)
    (l : List (ClientId × Account)) (h : ∀ x, f1 (f2 (f3 x)) = g1 (g2 (g3 x))) :
    updateKey k f1 (updateKey k f2 (updateKey k f3 l)) =
      updateKey k g1 (updateKey k g2 (updateKey k g3 l)) := by
  rw [updateKey_updateKey, updateKey_updateKey, updateKey_updateKey, updateKey_updateKey]
  exact updateKey_congr _ _ h

/-- acct_mut for the very client whose locked flag was overwritten. -/
theorem acct_mut_setLocked_self {c : ClientId} {e : Engine} (b : Bool)
    (hc : (lookupKey c e.accounts).isSome = true) :
    acct_mut c (setLocked c b e) =
      (setLocked c b e, { (acct_mut c e).2 with locked := b }) := by
  rcases ha : lookupKey c e.accounts with _ | a
  · rw [ha] at hc
    simp at hc
  · have h1 : lookupKey c (setLocked c b e).accounts = some { a with locked := b } := by
      show lookupKey c (updateKey c _ e.accounts) = _
      rw [lookupKey_updateKey_self, ha]
      rfl
    rw [acct_mut_of_some h1, acct_mut_of_some ha]

/-- acct_mut for a different client commutes with overwriting c's locked flag
(provided client c's account exists, so that no spurious default is locked). -/
theorem acct_mut_setLocked_other {cl c : ClientId} {e : Engine} (b : Bool) (hne : cl ≠ c)
    (hc : (lookupKey c e.accounts).isSome = true) :
    acct_mut cl (setLocked c b e) =
      (setLocked c b (acct_mut cl e).1, (acct_mut cl e).2) := by
  rcases ha : lookupKey cl e.accounts with _ | a
  · have h1 : lookupKey cl (setLocked c b e).accounts = none := by
      show lookupKey cl (updateKey c _ e.accounts) = none
      rw [lookupKey_updateKey_ne _ _ hne, ha]
    rw [acct_mut_of_none h1, acct_mut_of_none ha]
    rcases hcs : lookupKey c e.accounts with _ | ac
    · rw [hcs] at hc
      simp at hc
    · simp only [setLocked]
      rw [updateKey_append_left _ _ hcs]
  · have h1 : lookupKey cl (setLocked c b e).accounts = some a := by
      show lookupKey cl (updateKey c _ e.accounts) = some a
      rw [lookupKey_updateKey_ne _ _ hne, ha]
    rw [acct_mut_of_some h1, acct_mut_of_some ha]

/-- process_dispute_command never reads the locked flag: overwriting any
existing account's locked flag commutes with the whole handler. -/
theorem dispute_setLocked_comm (cmd : DisputeCommand) (c : ClientId) (b : Bool) (e : Engine)
    (hc : (lookupKey c e.accounts).isSome = true) :
    process_dispute_command cmd (setLocked c b e) =
      (setLocked c b (process_dispute_command cmd e).1,
       (process_dispute_command cmd e).2) := by
  have helSL : disputeEligible cmd (setLocked c b e) = disputeEligible cmd e := rfl
  rcases helig : disputeEligible cmd e with _ | amt
  · have heligSL : disputeEligible cmd (setLocked c b e) = none := by
      rw [helSL, helig]
    rw [dispute_inelig heligSL, dispute_inelig helig]
  · have heligSL : disputeEligible cmd (setLocked c b e) = some amt := by
      rw [helSL, helig]
    by_cases hcc : cmd.client = c
    · subst hcc
      rcases ha : lookupKey cmd.client e.accounts with _ | a
      · rw [ha] at hc
        simp at hc
      · have hAMe : acct_mut cmd.client e = (e, a) := acct_mut_of_some ha
        have hAMSL : acct_mut cmd.client (setLocked cmd.client b e) =
            (setLocked cmd.client b e, { a with locked := b }) := by
          rw [acct_mut_setLocked_self b hc, hAMe]
        by_cases hav : (acct_mut cmd.client e).2.available < amt
        · have havSL : (acct_mut cmd.client (setLocked cmd.client b e)).2.available < amt := by
            rw [hAMSL]
            rw [hAMe] at hav
            exact hav
          rw [dispute_insufficient heligSL havSL, dispute_insufficient helig hav, hAMSL, hAMe]
        · have havSL :
              ¬((acct_mut cmd.client (setLocked cmd.client b e)).2.available < amt) := by
            rw [hAMSL]
            rw [hAMe] at hav
            exact hav
          rcases hsub : checked_sub (acct_mut cmd.client e).2.available amt with _ | av
          · have hsubSL : checked_sub
                (acct_mut cmd.client (setLocked cmd.client b e)).2.available amt = none := by
              rw [hAMSL]
              rw [hAMe] at hsub
              exact hsub
            rw [dispute_subfail heligSL havSL hsubSL, dispute_subfail helig hav hsub,
              hAMSL, hAMe]
          · have hsubSL : checked_sub
                (acct_mut cmd.client (setLocked cmd.client b e)).2.available amt = some av := by
              rw [hAMSL]
              rw [hAMe] at hsub
              exact hsub
            rcases hadd : checked_add (acct_mut cmd.client e).2.held amt with _ | hd
            · have haddSL : checked_add
                  (acct_mut cmd.client (setLocked cmd.client b e)).2.held amt = none := by
                rw [hAMSL]
                rw [hAMe] at hadd
                exact hadd
              rw [dispute_addfail heligSL havSL hsubSL haddSL,
                dispute_addfail helig hav hsub hadd, hAMSL, hAMe]
              simp only [setLocked, Prod.mk.injEq, Engine.mk.injEq, and_true]
              exact updateKey_double_congr _ _ _ _ _ _ (fun x => rfl)
            · have haddSL : checked_add
                  (acct_mut cmd.client (setLocked cmd.client b e)).2.held amt = some hd := by
                rw [hAMSL]
                rw [hAMe] at hadd
                exact hadd
              rw [dispute_success heligSL havSL hsubSL haddSL,
                dispute_success helig hav hsub hadd, hAMSL, hAMe]
              simp only [setLocked, Prod.mk.injEq, Engine.mk.injEq, and_true]
              exact updateKey_triple_congr _ _ _ _ _ _ _ _ (fun x => rfl)
    · have hAMSL := @acct_mut_setLocked_other cmd.client c e b hcc hc
      by_cases hav : (acct_mut cmd.client e).2.available < amt
      · have havSL : (acct_mut cmd.client (setLocked c b e)).2.available < amt := by
          rw [hAMSL]
          exact hav
        rw [dispute_insufficient heligSL havSL, dispute_insufficient helig hav, hAMSL]
      · have havSL : ¬((acct_mut cmd.client (setLocked c b e)).2.available < amt) := by
          rw [hAMSL]
          exact hav
        rcases hsub : checked_sub (acct_mut cmd.client e).2.available amt with _ | av
        · have hsubSL : checked_sub
              (acct_mut cmd.client (setLocked c b e)).2.available amt = none := by
            rw [hAMSL]
            exact hsub
          rw [dispute_subfail heligSL havSL hsubSL, dispute_subfail helig hav hsub, hAMSL]
        · have hsubSL : checked_sub
              (acct_mut cmd.client (setLocked c b e)).2.available amt = some av := by
            rw [hAMSL]
            exact hsub
          rcases hadd : checked_add (acct_mut cmd.client e).2.held amt with _ | hd
          · have haddSL : checked_add
                (acct_mut cmd.client (setLocked c b e)).2.held amt = none := by
              rw [hAMSL]
              exact hadd
            rw [dispute_addfail heligSL havSL hsubSL haddSL,
              dispute_addfail helig hav hsub hadd, hAMSL]
            simp only [setLocked, Prod.mk.injEq, Engine.mk.injEq, and_true]
            exact updateKey_comm_ne _ _ _ hcc
          · have haddSL : checked_add
                (acct_mut cmd.client (setLocked c b e)).2.held amt = some hd := by
              rw [hAMSL]
              exact hadd
            rw [dispute_success heligSL havSL hsubSL haddSL,
              dispute_success helig hav hsub hadd, hAMSL]
            simp only [setLocked, Prod.mk.injEq, Engine.mk.injEq, and_true]
            rw [updateKey_comm_ne _ _ _ hcc]
            rw [updateKey_comm_ne _ _ _ hcc]

/-- process_resolve_command never reads the locked flag: overwriting any
existing account's locked flag commutes with the whole handler. -/
theorem resolve_setLocked_comm (cmd : ResolveCommand) (c : ClientId) (b : Bool) (e : Engine)
    (hc : (lookupKey c e.accounts).isSome = true) :
    process_resolve_command cmd (setLocked c b e) =
      (setLocked c b (process_resolve_command cmd e).1,
       (process_resolve_command cmd e).2) := by
  have helSL : resolveEligible cmd (setLocked c b e) = resolveEligible cmd e := rfl
  rcases helig : resolveEligible cmd e with _ | amt
  · have heligSL : resolveEligible cmd (setLocked c b e) = none := by
      rw [helSL, helig]
    rw [resolve_inelig heligSL, resolve_inelig helig]
  · have heligSL : resolveEligible cmd (setLocked c b e) = some amt := by
      rw [helSL, helig]
    by_cases hcc : cmd.client = c
    · subst hcc
      rcases ha : lookupKey cmd.client e.accounts with _ | a
      · rw [ha] at hc
        simp at hc
      · have hAMe : acct_mut cmd.client e = (e, a) := acct_mut_of_some ha
        have hAMSL : acct_mut cmd.client (setLocked cmd.client b e) =
            (setLocked cmd.client b e, { a with locked := b }) := by
          rw [acct_mut_setLocked_self b hc, hAMe]
        by_cases hhl : (acct_mut cmd.client e).2.held < amt
        · have hhlSL : (acct_mut cmd.client (setLocked cmd.client b e)).2.held < amt := by
            rw [hAMSL]
            rw [hAMe] at hhl
            exact hhl
          rw [resolve_heldlow heligSL hhlSL, resolve_heldlow helig hhl, hAMSL, hAMe]
        · have hhlSL :
              ¬((acct_mut cmd.client (setLocked cmd.client b e)).2.held < amt) := by
            rw [hAMSL]
            rw [hAMe] at hhl
            exact hhl
          rcases hsub : checked_sub (acct_mut cmd.client e).2.held amt with _ | hd
          · have hsubSL : checked_sub
                (acct_mut cmd.client (setLocked cmd.client b e)).2.held amt = none := by
              rw [hAMSL]
              rw [hAMe] at hsub
              exact hsub
            rw [resolve_subfail heligSL hhlSL hsubSL, resolve_subfail helig hhl hsub,
              hAMSL, hAMe]
          · have hsubSL : checked_sub
                (acct_mut cmd.client (setLocked cmd.client b e)).2.held amt = some hd := by
              rw [hAMSL]
              rw [hAMe] at hsub
              exact hsub
            rcases hadd : checked_add (acct_mut cmd.client e).2.available amt with _ | av
            · have haddSL : checked_add
                  (acct_mut cmd.client (setLocked cmd.client b e)).2.available amt = none := by
                rw [hAMSL]
                rw [hAMe] at hadd
                exact hadd
              rw [resolve_addfail heligSL hhlSL hsubSL haddSL,
                resolve_addfail helig hhl hsub hadd, hAMSL, hAMe]
              simp only [setLocked, Prod.mk.injEq, Engine.mk.injEq, and_true]
              exact updateKey_double_congr _ _ _ _ _ _ (fun x => rfl)
            · have haddSL : checked_add
                  (acct_mut cmd.client (setLocked cmd.client b e)).2.available amt = some av := by
                rw [hAMSL]
                rw [hAMe] at hadd
                exact hadd
              rw [resolve_success heligSL hhlSL hsubSL haddSL,
                resolve_success helig hhl hsub hadd, hAMSL, hAMe]
              simp only [setLocked, Prod.mk.injEq, Engine.mk.injEq, and_true]
              exact updateKey_triple_congr _ _ _ _ _ _ _ _ (fun x => rfl)
    · have hAMSL := @acct_mut_setLocked_other cmd.client c e b hcc hc
      by_cases hhl : (acct_mut cmd.client e).2.held < amt
      · have hhlSL : (acct_mut cmd.client (setLocked c b e)).2.held < amt := by
          rw [hAMSL]
          exact hhl
        rw [resolve_heldlow heligSL hhlSL, resolve_heldlow helig hhl, hAMSL]
      · have hhlSL : ¬((acct_mut cmd.client (setLocked c b e)).2.held < amt) := by
          rw [hAMSL]
          exact hhl
        rcases hsub : checked_sub (acct_mut cmd.client e).2.held amt with _ | hd
        · have hsubSL : checked_sub
              (acct_mut cmd.client (setLocked c b e)).2.held amt = none := by
            rw [hAMSL]
            exact hsub
          rw [resolve_subfail heligSL hhlSL hsubSL, resolve_subfail helig hhl hsub, hAMSL]
        · have hsubSL : checked_sub
              (acct_mut cmd.client (setLocked c b e)).2.held amt = some hd := by
            rw [hAMSL]
            exact hsub
          rcases hadd : checked_add (acct_mut cmd.client e).2.available amt with _ | av
          · have haddSL : checked_add
                (acct_mut cmd.client (setLocked c b e)).2.available amt = none := by
              rw [hAMSL]
              exact hadd
            rw [resolve_addfail heligSL hhlSL hsubSL haddSL,
              resolve_addfail helig hhl hsub hadd, hAMSL]
            simp only [setLocked, Prod.mk.injEq, Engine.mk.injEq, and_true]
            exact updateKey_comm_ne _ _ _ hcc
          · have haddSL : checked_add
                (acct_mut cmd.client (setLocked c b e)).2.available amt = some av := by
              rw [hAMSL]
              exact hadd
            rw [resolve_success heligSL hhlSL hsubSL haddSL,
              resolve_success helig hhl hsub hadd, hAMSL]
            simp only [setLocked, Prod.mk.injEq, Engine.mk.injEq, and_true]
            rw [updateKey_comm_ne _ _ _ hcc]
            rw [updateKey_comm_ne _ _ _ hcc]

/-- process_chargeback_command never reads the locked flag: overwriting any
existing account's locked flag changes neither the outcome nor anything in
the final state besides that account's own locked flag (which the handler may
itself set). -/
theorem chargeback_setLocked_comm (cmd : ChargebackCommand) (c : ClientId) (b : Bool)
    (e : Engine) (hc : (lookupKey c e.accounts).isSome = true) :
    (process_chargeback_command cmd (setLocked c b e)).2 =
      (process_chargeback_command cmd e).2 ∧
    setLocked c false (process_chargeback_command cmd (setLocked c b e)).1 =
      setLocked c false (setLocked c b (process_chargeback_command cmd e).1) := by
  have helSL : chargebackEligible cmd (setLocked c b e) = chargebackEligible cmd e := rfl
  rcases helig : chargebackEligible cmd e with _ | amt
  · have heligSL : chargebackEligible cmd (setLocked c b e) = none := by
      rw [helSL, helig]
    rw [chargeback_inelig heligSL, chargeback_inelig helig]
    exact ⟨rfl, rfl⟩
  · have heligSL : chargebackEligible cmd (setLocked c b e) = some amt := by
      rw [helSL, helig]
    by_cases hcc : cmd.client = c
    · subst hcc
      rcases ha : lookupKey cmd.client e.accounts with _ | a
      · rw [ha] at hc
        simp at hc
      · have hAMe : acct_mut cmd.client e = (e, a) := acct_mut_of_some ha
        have hAMSL : acct_mut cmd.client (setLocked cmd.client b e) =
            (setLocked cmd.client b e, { a with locked := b }) := by
          rw [acct_mut_setLocked_self b hc, hAMe]
        rcases hsub : checked_sub (acct_mut cmd.client e).2.held amt with _ | hd
        · have hsubSL : checked_sub
              (acct_mut cmd.client (setLocked cmd.client b e)).2.held amt = none := by
            rw [hAMSL]
            rw [hAMe] at hsub
            exact hsub
          rw [chargeback_subfail heligSL hsubSL, chargeback_subfail helig hsub, hAMSL, hAMe]
          exact ⟨rfl, rfl⟩
        · have hsubSL : checked_sub
              (acct_mut cmd.client (setLocked cmd.client b e)).2.held amt = some hd := by
            rw [hAMSL]
            rw [hAMe] at hsub
            exact hsub
          rw [chargeback_success heligSL hsubSL, chargeback_success helig hsub, hAMSL, hAMe]
          refine ⟨rfl, ?_⟩
          simp only [setLocked, Engine.mk.injEq, and_true]
          exact updateKey_triple_congr _ _ _ _ _ _ _ _ (fun x => rfl)
    · have hAMSL := @acct_mut_setLocked_other cmd.client c e b hcc hc
      rcases hsub : checked_sub (acct_mut cmd.client e).2.held amt with _ | hd
      · have hsubSL : checked_sub
            (acct_mut cmd.client (setLocked c b e)).2.held amt = none := by
          rw [hAMSL]
          exact hsub
        rw [chargeback_subfail heligSL hsubSL, chargeback_subfail helig hsub, hAMSL]
        exact ⟨rfl, rfl⟩
      · have hsubSL : checked_sub
            (acct_mut cmd.client (setLocked c b e)).2.held amt = some hd := by
          rw [hAMSL]
          exact hsub
        rw [chargeback_success heligSL hsubSL, chargeback_success helig hsub, hAMSL]
        refine ⟨rfl, ?_⟩
        simp only [setLocked, Engine.mk.injEq, and_true]
        rw [updateKey_comm_ne _ _ _ hcc]

/-- C3: the locked flag gates only Deposit and Withdrawal — once an account is
locked they are exact no-ops returning success — while Dispute, Resolve and
Chargeback never read the flag: overwriting the flag of any existing account
commutes with dispute and resolve, and changes neither a chargeback's outcome
nor anything in its final state beyond that account's own flag. -/
theorem locked_gates_only_movement :
    (∀ (cmd : DepositCommand) (e : Engine) (acc : Account),
      lookupKey cmd.client e.accounts = some acc → acc.locked = true →
      process_deposit_command cmd e = (e, true)) ∧
    (∀ (cmd : WithdrawalCommand) (e : Engine) (acc : Account),
      lookupKey cmd.client e.accounts = some acc → acc.locked = true →
      process_withdrawal_command cmd e = (e, true)) ∧
    (∀ (cmd : DisputeCommand) (c : ClientId) (b : Bool) (e : Engine),
      (lookupKey c e.accounts).isSome = true →
      process_dispute_command cmd (setLocked c b e) =
        (setLocked c b (process_dispute_command cmd e).1,
         (process_dispute_command cmd e).2)) ∧
    (∀ (cmd : ResolveCommand) (c : ClientId) (b : Bool) (e : Engine),
      (lookupKey c e.accounts).isSome = true →
      process_resolve_command cmd (setLocked c b e) =
        (setLocked c b (process_resolve_command cmd e).1,
         (process_resolve_command cmd e).2)) ∧
    (∀ (cmd : ChargebackCommand) (c : ClientId) (b : Bool) (e : Engine),
      (lookupKey c e.accounts).isSome = true →
      (process_chargeback_command cmd (setLocked c b e)).2 =
        (process_chargeback_command cmd e).2 ∧
      setLocked c false (process_chargeback_command cmd (setLocked c b e)).1 =
        setLocked c false (setLocked c b (process_chargeback_command cmd e).1)) :=
  ⟨fun cmd e acc h1 h2 => deposit_locked_noop cmd e acc h1 h2,
   fun cmd e acc h1 h2 => withdrawal_locked_noop cmd e acc h1 h2,
   fun cmd c b e hc => dispute_setLocked_comm cmd c b e hc,
   fun cmd c b e hc => resolve_setLocked_comm cmd c b e hc,
   fun cmd c b e hc => chargeback_setLocked_comm cmd c b e hc⟩

/-- Witness for locked_gates_only_movement at concrete inputs. -/
theorem locked_gates_only_movement_witness :
    process_deposit_command { client := 1, tx := 9, amount := 5 }
        (runList emptyEngine
          [Command.deposit 1 1 50000, Command.dispute 1 1, Command.chargeback 1 1]) =
      (runList emptyEngine
          [Command.deposit 1 1 50000, Command.dispute 1 1, Command.chargeback 1 1], true) ∧
    process_withdrawal_command { client := 1, tx := 9, amount := 5 }
        (runList emptyEngine
          [Command.deposit 1 1 50000, Command.dispute 1 1, Command.chargeback 1 1]) =
      (runList emptyEngine
          [Command.deposit 1 1 50000, Command.dispute 1 1, Command.chargeback 1 1], true) ∧
    process_dispute_command { client := 1, tx := 1 }
        (setLocked 1 true (runList emptyEngine [Command.deposit 1 1 50000])) =
      (setLocked 1 true
        (process_dispute_command { client := 1, tx := 1 }
          (runList emptyEngine [Command.deposit 1 1 50000])).1,
       (process_dispute_command { client := 1, tx := 1 }
          (runList emptyEngine [Command.deposit 1 1 50000])).2) ∧
    process_resolve_command { client := 1, tx := 1 }
        (setLocked 1 true
          (runList emptyEngine [Command.deposit 1 1 50000, Command.dispute 1 1])) =
      (setLocked 1 true
        (process_resolve_command { client := 1, tx := 1 }
          (runList emptyEngine [Command.deposit 1 1 50000, Command.dispute 1 1])).1,
       (process_resolve_command { client := 1, tx := 1 }
          (runList emptyEngine [Command.deposit 1 1 50000, Command.dispute 1 1])).2) ∧
    ((process_chargeback_command { client := 1, tx := 1 }
        (setLocked 1 true
          (runList emptyEngine [Command.deposit 1 1 50000, Command.dispute 1 1]))).2 =
      (process_chargeback_command { client := 1, tx := 1 }
        (runList emptyEngine [Command.deposit 1 1 50000, Command.dispute 1 1])).2 ∧
     setLocked 1 false (process_chargeback_command { client := 1, tx := 1 }
        (setLocked 1 true
          (runList emptyEngine [Command.deposit 1 1 50000, Command.dispute 1 1]))).1 =
      setLocked 1 false (setLocked 1 true
        (process_chargeback_command { client := 1, tx := 1 }
          (runList emptyEngine [Command.deposit 1 1 50000, Command.dispute 1 1])).1)) :=
  ⟨locked_gates_only_movement.1 _ _ { available := 0, held := 0, locked := true }
     (by decide) rfl,
   locked_gates_only_movement.2.1 _ _ { available := 0, held := 0, locked := true }
     (by decide) rfl,
   locked_gates_only_movement.2.2.1 _ 1 true _ (by decide),
   locked_gates_only_movement.2.2.2.1 _ 1 true _ (by decide),
   locked_gates_only_movement.2.2.2.2 _ 1 true _ (by decide)⟩

/-
Claim C1: conservation.
-/

theorem sumTotals_acct_mut (c : ClientId) (e : Engine) :
    sumTotals (acct_mut c e).1 = sumTotals e :=
  sumAcc_acct_mut c e

/-- Effect of a deposit on the global sum: it grows by exactly the amount when
the deposit is applied (its record gets inserted), else stays put; record
amounts stay non-negative. -/
theorem deposit_effects (cmd : DepositCommand) (e : Engine)
    (hrec : ∀ q ∈ e.txs, 0 ≤ q.2.amount) (hnn : 0 ≤ cmd.amount) :
    (∀ q ∈ (process_deposit_command cmd e).1.txs, 0 ≤ q.2.amount) ∧
    sumTotals (process_deposit_command cmd e).1 =
      sumTotals e + (if (lookupKey cmd.tx e.txs).isNone ∧
          (lookupKey cmd.tx (process_deposit_command cmd e).1.txs).isSome
        then cmd.amount else 0) := by
  by_cases hdup : (lookupKey cmd.tx e.txs).isSome = true
  · rw [deposit_dup hdup]
    have hni : (lookupKey cmd.tx e.txs).isNone = false := by
      rcases hv : lookupKey cmd.tx e.txs with _ | v
      · rw [hv] at hdup
        simp at hdup
      · simp
    refine ⟨hrec, ?_⟩
    rw [if_neg (by simp [hni])]
    ring
  · have h' : (lookupKey cmd.tx e.txs).isSome = false := by
      revert hdup; cases (lookupKey cmd.tx e.txs).isSome <;> simp
    have hnone : lookupKey cmd.tx e.txs = none := by
      revert h'; rcases lookupKey cmd.tx e.txs with _ | v <;> simp
    by_cases hlk : (acct_mut cmd.client e).2.locked = true
    · rw [deposit_locked h' hlk]
      have hns : (lookupKey cmd.tx (acct_mut cmd.client e).1.txs).isSome = false := by
        rw [acct_mut_txs]
        exact h'
      refine ⟨by rw [acct_mut_txs]; exact hrec, ?_⟩
      rw [if_neg (by simp [hns]), sumTotals_acct_mut]
      ring
    · have hlkf : (acct_mut cmd.client e).2.locked = false := by
        revert hlk; cases (acct_mut cmd.client e).2.locked <;> simp
      rcases hadd : checked_add (acct_mut cmd.client e).2.available cmd.amount with _ | v
      · rw [deposit_addfail h' hlkf hadd]
        have hns : (lookupKey cmd.tx (acct_mut cmd.client e).1.txs).isSome = false := by
          rw [acct_mut_txs]
          exact h'
        refine ⟨by rw [acct_mut_txs]; exact hrec, ?_⟩
        rw [if_neg (by simp [hns]), sumTotals_acct_mut]
        ring
      · rw [deposit_success h' hlkf hadd]
        obtain ⟨hv, _, _⟩ := checked_add_some hadd
        constructor
        · intro q hq
          simp only at hq
          rw [acct_mut_txs] at hq
          rcases List.mem_append.mp hq with hq | hq
          · exact hrec q hq
          · rcases List.mem_singleton.mp hq with hq2
            rw [hq2]
            exact hnn
        · have hix : (lookupKey cmd.tx ((acct_mut cmd.client e).1.txs ++
              [(cmd.tx, { client := cmd.client, kind := TxKind.Deposit,
                          amount := cmd.amount, state := DisputeState.Normal })])).isSome
              = true := by
            rw [lookupKey_append_right _ (by rw [acct_mut_txs]; exact hnone),
              lookupKey_singleton_self]
            rfl
          rw [if_pos ⟨by rw [hnone]; rfl, hix⟩]
          have hlook : lookupKey cmd.client (acct_mut cmd.client e).1.accounts =
              some (acct_mut cmd.client e).2 := lookup_acct_mut_self _ _
          have hsum := sumAcc_updateKey (fun a => { a with available := v }) hlook
          simp only [sumTotals]
          rw [hsum, sumAcc_acct_mut]
          simp only
          rw [hv]
          ring

/-- Effect of a withdrawal on the global sum: it shrinks by exactly the amount
when the withdrawal is applied, else stays put. -/
theorem withdrawal_effects (cmd : WithdrawalCommand) (e : Engine)
    (hrec : ∀ q ∈ e.txs, 0 ≤ q.2.amount) (hnn : 0 ≤ cmd.amount) :
    (∀ q ∈ (process_withdrawal_command cmd e).1.txs, 0 ≤ q.2.amount) ∧
    sumTotals (process_withdrawal_command cmd e).1 =
      sumTotals e - (if (lookupKey cmd.tx e.txs).isNone ∧
          (lookupKey cmd.tx (process_withdrawal_command cmd e).1.txs).isSome
        then cmd.amount else 0) := by
  by_cases hdup : (lookupKey cmd.tx e.txs).isSome = true
  · rw [withdrawal_dup hdup]
    have hni : (lookupKey cmd.tx e.txs).isNone = false := by
      rcases hv : lookupKey cmd.tx e.txs with _ | v
      · rw [hv] at hdup
        simp at hdup
      · simp
    refine ⟨hrec, ?_⟩
    rw [if_neg (by simp [hni])]
    ring
  · have h' : (lookupKey cmd.tx e.txs).isSome = false := by
      revert hdup; cases (lookupKey cmd.tx e.txs).isSome <;> simp
    have hnone : lookupKey cmd.tx e.txs = none := by
      revert h'; rcases lookupKey cmd.tx e.txs with _ | v <;> simp
    by_cases hlk : (acct_mut cmd.client e).2.locked = true
    · rw [withdrawal_locked h' hlk]
      have hns : (lookupKey cmd.tx (acct_mut cmd.client e).1.txs).isSome = false := by
        rw [acct_mut_txs]
        exact h'
      refine ⟨by rw [acct_mut_txs]; exact hrec, ?_⟩
      rw [if_neg (by simp [hns]), sumTotals_acct_mut]
      ring
    · have hlkf : (acct_mut cmd.client e).2.locked = false := by
        revert hlk; cases (acct_mut cmd.client e).2.locked <;> simp
      by_cases hav : (acct_mut cmd.client e).2.available < cmd.amount
      · rw [withdrawal_insufficient h' hlkf hav]
        have hns : (lookupKey cmd.tx (acct_mut cmd.client e).1.txs).isSome = false := by
          rw [acct_mut_txs]
          exact h'
        refine ⟨by rw [acct_mut_txs]; exact hrec, ?_⟩
        rw [if_neg (by simp [hns]), sumTotals_acct_mut]
        ring
      · rcases hsub : checked_sub (acct_mut cmd.client e).2.available cmd.amount with _ | v
        · rw [withdrawal_subfail h' hlkf hav hsub]
          have hns : (lookupKey cmd.tx (acct_mut cmd.client e).1.txs).isSome = false := by
            rw [acct_mut_txs]
            exact h'
          refine ⟨by rw [acct_mut_txs]; exact hrec, ?_⟩
          rw [if_neg (by simp [hns]), sumTotals_acct_mut]
          ring
        · rw [withdrawal_success h' hlkf hav hsub]
          obtain ⟨hv, _, _⟩ := checked_sub_some hsub
          constructor
          · intro q hq
            simp only at hq
            rw [acct_mut_txs] at hq
            rcases List.mem_append.mp hq with hq | hq
            · exact hrec q hq
            · rcases List.mem_singleton.mp hq with hq2
              rw [hq2]
              exact hnn
          · have hix : (lookupKey cmd.tx ((acct_mut cmd.client e).1.txs ++
                [(cmd.tx, { client := cmd.client, kind := TxKind.Withdrawal,
                            amount := cmd.amount, state := DisputeState.Normal })])).isSome
                = true := by
              rw [lookupKey_append_right _ (by rw [acct_mut_txs]; exact hnone),
                lookupKey_singleton_self]
              rfl
            rw [if_pos ⟨by rw [hnone]; rfl, hix⟩]
            have hlook : lookupKey cmd.client (acct_mut cmd.client e).1.accounts =
                some (acct_mut cmd.client e).2 := lookup_acct_mut_self _ _
            have hsum := sumAcc_updateKey (fun a => { a with available := v }) hlook
            simp only [sumTotals]
            rw [hsum, sumAcc_acct_mut]
            simp only
            rw [hv]
            ring

/-- A dispute never increases the global sum (whether it succeeds, no-ops, or
aborts part way), given non-negative record amounts. -/
theorem dispute_effects (cmd : DisputeCommand) (e : Engine)
    (hrec : ∀ q ∈ e.txs, 0 ≤ q.2.amount) :
    (∀ q ∈ (process_dispute_command cmd e).1.txs, 0 ≤ q.2.amount) ∧
    sumTotals (process_dispute_command cmd e).1 ≤ sumTotals e := by
  rcases helig : disputeEligible cmd e with _ | amt
  · rw [dispute_inelig helig]
    exact ⟨hrec, le_refl _⟩
  · obtain ⟨r, hr, hcl, hkind, hnorm, hamt⟩ := disputeEligible_inv helig
    have hannn : 0 ≤ amt := by
      rw [← hamt]
      exact hrec (cmd.tx, r) (mem_of_lookupKey hr)
    by_cases hav : (acct_mut cmd.client e).2.available < amt
    · rw [dispute_insufficient helig hav]
      refine ⟨by rw [acct_mut_txs]; exact hrec, ?_⟩
      rw [sumTotals_acct_mut]
    · rcases hsub : checked_sub (acct_mut cmd.client e).2.available amt with _ | av
      · rw [dispute_subfail helig hav hsub]
        refine ⟨by rw [acct_mut_txs]; exact hrec, ?_⟩
        rw [sumTotals_acct_mut]
      · obtain ⟨hveq, _, _⟩ := checked_sub_some hsub
        have hlook : lookupKey cmd.client (acct_mut cmd.client e).1.accounts =
            some (acct_mut cmd.client e).2 := lookup_acct_mut_self _ _
        have hsum1 : sumAcc (updateKey cmd.client (fun a => { a with available := av })
            (acct_mut cmd.client e).1.accounts) =
            sumAcc (acct_mut cmd.client e).1.accounts -
              ((acct_mut cmd.client e).2.available + (acct_mut cmd.client e).2.held) +
              (av + (acct_mut cmd.client e).2.held) := by
          rw [sumAcc_updateKey (fun a => { a with available := av }) hlook]
        rcases hadd : checked_add (acct_mut cmd.client e).2.held amt with _ | hd
        · rw [dispute_addfail helig hav hsub hadd]
          refine ⟨by simp only; rw [acct_mut_txs]; exact hrec, ?_⟩
          simp only [sumTotals]
          rw [hsum1, sumAcc_acct_mut]
          linarith
        · obtain ⟨hdeq, _, _⟩ := checked_add_some hadd
          rw [dispute_success helig hav hsub hadd]
          constructor
          · simp only
            intro q hq
            have hrec1 : ∀ p ∈ (acct_mut cmd.client e).1.txs, 0 ≤ p.2.amount := by
              rw [acct_mut_txs]
              exact hrec
            have hf : ∀ vv, lookupKey cmd.tx (acct_mut cmd.client e).1.txs = some vv →
                0 ≤ ({ vv with state := DisputeState.Disputed } : TxRecord).amount := by
              intro vv hvv
              rw [acct_mut_txs] at hvv
              exact hrec (cmd.tx, vv) (mem_of_lookupKey hvv)
            exact forall_mem_updateKey (fun x : TxRecord => 0 ≤ x.amount) hrec1 hf q hq
          · have hlook2 : lookupKey cmd.client
                (updateKey cmd.client (fun a => { a with available := av })
                  (acct_mut cmd.client e).1.accounts) =
                some { (acct_mut cmd.client e).2 with available := av } := by
              rw [lookupKey_updateKey_self, hlook]
              rfl
            have hsum2 : sumAcc (updateKey cmd.client (fun a => { a with held := hd })
                (updateKey cmd.client (fun a => { a with available := av })
                  (acct_mut cmd.client e).1.accounts)) =
                sumAcc (updateKey cmd.client (fun a => { a with available := av })
                  (acct_mut cmd.client e).1.accounts) -
                  (av + (acct_mut cmd.client e).2.held) + (av + hd) := by
              rw [sumAcc_updateKey (fun a => { a with held := hd }) hlook2]
            simp only [sumTotals]
            rw [hsum2, hsum1, sumAcc_acct_mut]
            linarith

/-- A resolve never increases the global sum. -/
theorem resolve_effects (cmd : ResolveCommand) (e : Engine)
    (hrec : ∀ q ∈ e.txs, 0 ≤ q.2.amount) :
    (∀ q ∈ (process_resolve_command cmd e).1.txs, 0 ≤ q.2.amount) ∧
    sumTotals (process_resolve_command cmd e).1 ≤ sumTotals e := by
  rcases helig : resolveEligible cmd e with _ | amt
  · rw [resolve_inelig helig]
    exact ⟨hrec, le_refl _⟩
  · obtain ⟨r, hr, hcl, hdisp, hamt⟩ := resolveEligible_inv helig
    have hannn : 0 ≤ amt := by
      rw [← hamt]
      exact hrec (cmd.tx, r) (mem_of_lookupKey hr)
    by_cases hhl : (acct_mut cmd.client e).2.held < amt
    · rw [resolve_heldlow helig hhl]
      refine ⟨by rw [acct_mut_txs]; exact hrec, ?_⟩
      rw [sumTotals_acct_mut]
    · rcases hsub : checked_sub (acct_mut cmd.client e).2.held amt with _ | hd
      · rw [resolve_subfail helig hhl hsub]
        refine ⟨by rw [acct_mut_txs]; exact hrec, ?_⟩
        rw [sumTotals_acct_mut]
      · obtain ⟨hdeq, _, _⟩ := checked_sub_some hsub
        have hlook : lookupKey cmd.client (acct_mut cmd.client e).1.accounts =
            some (acct_mut cmd.client e).2 := lookup_acct_mut_self _ _
        have hsum1 : sumAcc (updateKey cmd.client (fun a => { a with held := hd })
            (acct_mut cmd.client e).1.accounts) =
            sumAcc (acct_mut cmd.client e).1.accounts -
              ((acct_mut cmd.client e).2.available + (acct_mut cmd.client e).2.held) +
              ((acct_mut cmd.client e).2.available + hd) := by
          rw [sumAcc_updateKey (fun a => { a with held := hd }) hlook]
        rcases hadd : checked_add (acct_mut cmd.client e).2.available amt with _ | av
        · rw [resolve_addfail helig hhl hsub hadd]
          refine ⟨by simp only; rw [acct_mut_txs]; exact hrec, ?_⟩
          simp only [sumTotals]
          rw [hsum1, sumAcc_acct_mut]
          linarith
        · obtain ⟨haeq, _, _⟩ := checked_add_some hadd
          rw [resolve_success helig hhl hsub hadd]
          constructor
          · simp only
            intro q hq
            have hrec1 : ∀ p ∈ (acct_mut cmd.client e).1.txs, 0 ≤ p.2.amount := by
              rw [acct_mut_txs]
              exact hrec
            have hf : ∀ vv, lookupKey cmd.tx (acct_mut cmd.client e).1.txs = some vv →
                0 ≤ ({ vv with state := DisputeState.Normal } : TxRecord).amount := by
              intro vv hvv
              rw [acct_mut_txs] at hvv
              exact hrec (cmd.tx, vv) (mem_of_lookupKey hvv)
            exact forall_mem_updateKey (fun x : TxRecord => 0 ≤ x.amount) hrec1 hf q hq
          · have hlook2 : lookupKey cmd.client
                (updateKey cmd.client (fun a => { a with held := hd })
                  (acct_mut cmd.client e).1.accounts) =
                some { (acct_mut cmd.client e).2 with held := hd } := by
              rw [lookupKey_updateKey_self, hlook]
              rfl
            have hsum2 : sumAcc (updateKey cmd.client (fun a => { a with available := av })
                (updateKey cmd.client (fun a => { a with held := hd })
                  (acct_mut cmd.client e).1.accounts)) =
                sumAcc (updateKey cmd.client (fun a => { a with held := hd })
                  (acct_mut cmd.client e).1.accounts) -
                  ((acct_mut cmd.client e).2.available + hd) + (av + hd) := by
              rw [sumAcc_updateKey (fun a => { a with available := av }) hlook2]
            simp only [sumTotals]
            rw [hsum2, hsum1, sumAcc_acct_mut]
            linarith

/-- A chargeback never increases the global sum. -/
theorem chargeback_effects (cmd : ChargebackCommand) (e : Engine)
    (hrec : ∀ q ∈ e.txs, 0 ≤ q.2.amount) :
    (∀ q ∈ (process_chargeback_command cmd e).1.txs, 0 ≤ q.2.amount) ∧
    sumTotals (process_chargeback_command cmd e).1 ≤ sumTotals e := by
  rcases helig : chargebackEligible cmd e with _ | amt
  · rw [chargeback_inelig helig]
    exact ⟨hrec, le_refl _⟩
  · obtain ⟨r, hr, hcl, hdisp, hamt⟩ := chargebackEligible_inv helig
    have hannn : 0 ≤ amt := by
      rw [← hamt]
      exact hrec (cmd.tx, r) (mem_of_lookupKey hr)
    rcases hsub : checked_sub (acct_mut cmd.client e).2.held amt with _ | hd
    · rw [chargeback_subfail helig hsub]
      refine ⟨by rw [acct_mut_txs]; exact hrec, ?_⟩
      rw [sumTotals_acct_mut]
    · obtain ⟨hdeq, _, _⟩ := checked_sub_some hsub
      have hlook : lookupKey cmd.client (acct_mut cmd.client e).1.accounts =
          some (acct_mut cmd.client e).2 := lookup_acct_mut_self _ _
      have hsum1 : sumAcc (updateKey cmd.client
          (fun a => { a with held := hd, locked := true })
          (acct_mut cmd.client e).1.accounts) =
          sumAcc (acct_mut cmd.client e).1.accounts -
            ((acct_mut cmd.client e).2.available + (acct_mut cmd.client e).2.held) +
            ((acct_mut cmd.client e).2.available + hd) := by
        rw [sumAcc_updateKey (fun a => { a with held := hd, locked := true }) hlook]
      rw [chargeback_success helig hsub]
      constructor
      · simp only
        intro q hq
        have hrec1 : ∀ p ∈ (acct_mut cmd.client e).1.txs, 0 ≤ p.2.amount := by
          rw [acct_mut_txs]
          exact hrec
        have hf : ∀ vv, lookupKey cmd.tx (acct_mut cmd.client e).1.txs = some vv →
            0 ≤ ({ vv with state := DisputeState.ChargedBack } : TxRecord).amount := by
          intro vv hvv
          rw [acct_mut_txs] at hvv
          exact hrec (cmd.tx, vv) (mem_of_lookupKey hvv)
        exact forall_mem_updateKey (fun x : TxRecord => 0 ≤ x.amount) hrec1 hf q hq
      · simp only [sumTotals]
        rw [hsum1, sumAcc_acct_mut]
        linarith

/-- Conservation induction: with non-negative command amounts, the global sum
of available + held never exceeds applied deposits minus applied
withdrawals. -/
theorem runSums_conservation (cmds : List Command) :
    ∀ (e : Engine) (dep wd : Int),
      (∀ q ∈ e.txs, 0 ≤ q.2.amount) →
      sumTotals e ≤ dep - wd →
      (∀ cd ∈ cmds, cmdNonneg cd = true) →
      (∀ q ∈ (runSums e dep wd cmds).1.txs, 0 ≤ q.2.amount) ∧
      sumTotals (runSums e dep wd cmds).1 ≤
        (runSums e dep wd cmds).2.1 - (runSums e dep wd cmds).2.2 := by
  induction cmds with
  | nil =>
    intro e dep wd hrec hsum _
    exact ⟨hrec, hsum⟩
  | cons cd cs ih =>
    intro e dep wd hrec hsum hnn
    have hnn0 : cmdNonneg cd = true := hnn cd (List.mem_cons_self _ _)
    have hnns : ∀ x ∈ cs, cmdNonneg x = true :=
      fun x hx => hnn x (List.mem_cons_of_mem _ hx)
    cases cd with
    | deposit cl t a =>
      have ha : 0 ≤ a := by simpa [cmdNonneg] using hnn0
      obtain ⟨hrec2, hsum2⟩ :=
        deposit_effects { client := cl, tx := t, amount := a } e hrec ha
      simp only [runSums, step]
      by_cases hcond : (lookupKey t e.txs).isNone = true ∧
          (lookupKey t (process_deposit_command
            { client := cl, tx := t, amount := a } e).1.txs).isSome = true
      · rw [if_pos hcond]
        rw [if_pos hcond] at hsum2
        exact ih _ _ _ hrec2 (by rw [hsum2]; linarith) hnns
      · rw [if_neg hcond]
        rw [if_neg hcond] at hsum2
        exact ih _ _ _ hrec2 (by rw [hsum2]; linarith) hnns
    | withdrawal cl t a =>
      have ha : 0 ≤ a := by simpa [cmdNonneg] using hnn0
      obtain ⟨hrec2, hsum2⟩ :=
        withdrawal_effects { client := cl, tx := t, amount := a } e hrec ha
      simp only [runSums, step]
      by_cases hcond : (lookupKey t e.txs).isNone = true ∧
          (lookupKey t (process_withdrawal_command
            { client := cl, tx := t, amount := a } e).1.txs).isSome = true
      · rw [if_pos hcond]
        rw [if_pos hcond] at hsum2
        exact ih _ _ _ hrec2 (by rw [hsum2]; linarith) hnns
      · rw [if_neg hcond]
        rw [if_neg hcond] at hsum2
        exact ih _ _ _ hrec2 (by rw [hsum2]; linarith) hnns
    | dispute cl t =>
      obtain ⟨hrec2, hsum2⟩ := dispute_effects { client := cl, tx := t } e hrec
      simp only [runSums, step]
      exact ih _ _ _ hrec2 (le_trans hsum2 hsum) hnns
    | resolve cl t =>
      obtain ⟨hrec2, hsum2⟩ := resolve_effects { client := cl, tx := t } e hrec
      simp only [runSums, step]
      exact ih _ _ _ hrec2 (le_trans hsum2 hsum) hnns
    | chargeback cl t =>
      obtain ⟨hrec2, hsum2⟩ := chargeback_effects { client := cl, tx := t } e hrec
      simp only [runSums, step]
      exact ih _ _ _ hrec2 (le_trans hsum2 hsum) hnns

/-- A dispute that returns Ok leaves the client's exact total unchanged. -/
theorem dispute_preserves_total (cmd : DisputeCommand) (e : Engine)
    (hsucc : (process_dispute_command cmd e).2 = true) :
    clientTotal cmd.client (process_dispute_command cmd e).1 = clientTotal cmd.client e := by
  rcases helig : disputeEligible cmd e with _ | amt
  · rw [dispute_inelig helig]
  · by_cases hav : (acct_mut cmd.client e).2.available < amt
    · rw [dispute_insufficient helig hav]
      unfold clientTotal
      rw [acctOf_acct_mut]
    · rcases hsub : checked_sub (acct_mut cmd.client e).2.available amt with _ | av
      · rw [dispute_subfail helig hav hsub] at hsucc
        simp at hsucc
      · rcases hadd : checked_add (acct_mut cmd.client e).2.held amt with _ | hd
        · rw [dispute_addfail helig hav hsub hadd] at hsucc
          simp at hsucc
        · obtain ⟨hveq, _, _⟩ := checked_sub_some hsub
          obtain ⟨hdeq, _, _⟩ := checked_add_some hadd
          rw [dispute_success helig hav hsub hadd]
          have hR : clientTotal cmd.client e =
              (acct_mut cmd.client e).2.available + (acct_mut cmd.client e).2.held := by
            unfold clientTotal
            rw [acctOf_eq_acct_mut_snd]
          rw [hR]
          have hlook : lookupKey cmd.client (acct_mut cmd.client e).1.accounts =
              some (acct_mut cmd.client e).2 := lookup_acct_mut_self _ _
          unfold clientTotal acctOf
          simp only
          rw [lookupKey_updateKey_self, lookupKey_updateKey_self, hlook]
          simp
          linarith

/-- A resolve that returns Ok leaves the client's exact total unchanged. -/
theorem resolve_preserves_total (cmd : ResolveCommand) (e : Engine)
    (hsucc : (process_resolve_command cmd e).2 = true) :
    clientTotal cmd.client (process_resolve_command cmd e).1 = clientTotal cmd.client e := by
  rcases helig : resolveEligible cmd e with _ | amt
  · rw [resolve_inelig helig]
  · by_cases hhl : (acct_mut cmd.client e).2.held < amt
    · rw [resolve_heldlow helig hhl] at hsucc
      simp at hsucc
    · rcases hsub : checked_sub (acct_mut cmd.client e).2.held amt with _ | hd
      · rw [resolve_subfail helig hhl hsub] at hsucc
        simp at hsucc
      · rcases hadd : checked_add (acct_mut cmd.client e).2.available amt with _ | av
        · rw [resolve_addfail helig hhl hsub hadd] at hsucc
          simp at hsucc
        · obtain ⟨hdeq, _, _⟩ := checked_sub_some hsub
          obtain ⟨haeq, _, _⟩ := checked_add_some hadd
          rw [resolve_success helig hhl hsub hadd]
          have hR : clientTotal cmd.client e =
              (acct_mut cmd.client e).2.available + (acct_mut cmd.client e).2.held := by
            unfold clientTotal
            rw [acctOf_eq_acct_mut_snd]
          rw [hR]
          have hlook : lookupKey cmd.client (acct_mut cmd.client e).1.accounts =
              some (acct_mut cmd.client e).2 := lookup_acct_mut_self _ _
          unfold clientTotal acctOf
          simp only
          rw [lookupKey_updateKey_self, lookupKey_updateKey_self, hlook]
          simp
          linarith

/-- An applied chargeback decreases the client's exact total by exactly the
disputed amount. -/
theorem chargeback_decreases_total (cmd : ChargebackCommand) (e : Engine) (r : TxRecord)
    (hl : lookupKey cmd.tx e.txs = some r) (hcl : r.client = cmd.client)
    (hdisp : r.state = DisputeState.Disputed)
    (hsucc : (process_chargeback_command cmd e).2 = true) :
    clientTotal cmd.client (process_chargeback_command cmd e).1 =
      clientTotal cmd.client e - r.amount := by
  have helig : chargebackEligible cmd e = some r.amount := by
    simp [chargebackEligible, hl, hcl, hdisp]
  rcases hsub : checked_sub (acct_mut cmd.client e).2.held r.amount with _ | hd
  · rw [chargeback_subfail helig hsub] at hsucc
    simp at hsucc
  · obtain ⟨hdeq, _, _⟩ := checked_sub_some hsub
    rw [chargeback_success helig hsub]
    have hR : clientTotal cmd.client e =
        (acct_mut cmd.client e).2.available + (acct_mut cmd.client e).2.held := by
      unfold clientTotal
      rw [acctOf_eq_acct_mut_snd]
    rw [hR]
    have hlook : lookupKey cmd.client (acct_mut cmd.client e).1.accounts =
        some (acct_mut cmd.client e).2 := lookup_acct_mut_self _ _
    unfold clientTotal acctOf
    simp only
    rw [lookupKey_updateKey_self, hlook]
    simp
    linarith

/-- C1 (amended): for command sequences whose deposit and withdrawal amounts
are non-negative, the sum of available + held across all accounts never
exceeds the sum of successfully applied deposit amounts minus successfully
applied withdrawal amounts; a dispute or resolve returning Ok leaves the
affected client's exact total unchanged; and an applied chargeback decreases
that total by exactly the disputed amount. -/
theorem conservation_amended :
    (∀ cmds : List Command, (∀ cd ∈ cmds, cmdNonneg cd = true) →
      sumTotals (runSums emptyEngine 0 0 cmds).1 ≤
        (runSums emptyEngine 0 0 cmds).2.1 - (runSums emptyEngine 0 0 cmds).2.2) ∧
    (∀ (cmd : DisputeCommand) (e : Engine),
      (process_dispute_command cmd e).2 = true →
      clientTotal cmd.client (process_dispute_command cmd e).1 =
        clientTotal cmd.client e) ∧
    (∀ (cmd : ResolveCommand) (e : Engine),
      (process_resolve_command cmd e).2 = true →
      clientTotal cmd.client (process_resolve_command cmd e).1 =
        clientTotal cmd.client e) ∧
    (∀ (cmd : ChargebackCommand) (e : Engine) (r : TxRecord),
      lookupKey cmd.tx e.txs = some r → r.client = cmd.client →
      r.state = DisputeState.Disputed → (process_chargeback_command cmd e).2 = true →
      clientTotal cmd.client (process_chargeback_command cmd e).1 =
        clientTotal cmd.client e - r.amount) := by
  refine ⟨?_, dispute_preserves_total, resolve_preserves_total,
    chargeback_decreases_total⟩
  intro cmds hnn
  exact (runSums_conservation cmds emptyEngine 0 0 (by simp [emptyEngine])
    (by simp [sumTotals, sumAcc, emptyEngine]) hnn).2

/-- Witness for conservation_amended at concrete inputs. -/
theorem conservation_amended_witness :
    sumTotals (runSums emptyEngine 0 0
        [Command.deposit 1 1 50000, Command.withdrawal 1 2 20000]).1 ≤
      (runSums emptyEngine 0 0
        [Command.deposit 1 1 50000, Command.withdrawal 1 2 20000]).2.1 -
      (runSums emptyEngine 0 0
        [Command.deposit 1 1 50000, Command.withdrawal 1 2 20000]).2.2 ∧
    clientTotal 1 (process_dispute_command { client := 1, tx := 1 }
        (runList emptyEngine [Command.deposit 1 1 50000])).1 =
      clientTotal 1 (runList emptyEngine [Command.deposit 1 1 50000]) ∧
    clientTotal 1 (process_resolve_command { client := 1, tx := 1 }
        (runList emptyEngine [Command.deposit 1 1 50000, Command.dispute 1 1])).1 =
      clientTotal 1 (runList emptyEngine [Command.deposit 1 1 50000, Command.dispute 1 1]) ∧
    clientTotal 1 (process_chargeback_command { client := 1, tx := 1 }
        (runList emptyEngine [Command.deposit 1 1 50000, Command.dispute 1 1])).1 =
      clientTotal 1 (runList emptyEngine [Command.deposit 1 1 50000, Command.dispute 1 1])
        - 50000 :=
  ⟨conservation_amended.1 _ (by decide),
   conservation_amended.2.1 { client := 1, tx := 1 }
     (runList emptyEngine [Command.deposit 1 1 50000]) (by decide),
   conservation_amended.2.2.1 { client := 1, tx := 1 }
     (runList emptyEngine [Command.deposit 1 1 50000, Command.dispute 1 1]) (by decide),
   conservation_amended.2.2.2 { client := 1, tx := 1 } _
     { client := 1, kind := TxKind.Deposit, amount := 50000,
       state := DisputeState.Disputed }
     (by decide) rfl rfl (by decide)⟩

/-
Claims C2 and C10: the inductive invariant of all-success non-negative runs.
-/

theorem goodState_acct_mut (c : ClientId) (e : Engine) (hg : GoodState e) :
    GoodState (acct_mut c e).1 := by
  obtain ⟨hacc, hrec, hheld⟩ := hg
  refine ⟨?_, ?_, ?_⟩
  · rcases h : lookupKey c e.accounts with _ | a
    · rw [acct_mut_of_none h]
      intro p hp
      simp only at hp
      rcases List.mem_append.mp hp with hp | hp
      · exact hacc p hp
      · rcases List.mem_singleton.mp hp with h2
        rw [h2]
        exact ⟨le_refl 0, le_refl 0, show (0 : Int) ≤ i64Max by decide⟩
    · rw [acct_mut_of_some h]
      exact hacc
  · intro q hq
    rw [acct_mut_txs] at hq
    exact hrec q hq
  · intro c2
    rw [acctOf_acct_mut, acct_mut_txs]
    exact hheld c2

theorem acct_mut_snd_ok (c : ClientId) (e : Engine) (hacc : AcctsOk e) :
    0 ≤ (acct_mut c e).2.available ∧ 0 ≤ (acct_mut c e).2.held ∧
      (acct_mut c e).2.held ≤ i64Max := by
  rcases h : lookupKey c e.accounts with _ | a
  · rw [acct_mut_of_none h]
    exact ⟨le_refl 0, le_refl 0, show (0 : Int) ≤ i64Max by decide⟩
  · rw [acct_mut_of_some h]
    exact hacc (c, a) (mem_of_lookupKey h)

/-- The held balance of an existing client, with acct_mut read back. -/
theorem held_eq_disputed (c : ClientId) (e : Engine) (hheld : HeldInv e) :
    (acct_mut c e).2.held = disputedSum c e.txs := by
  rw [← acctOf_eq_acct_mut_snd]
  exact hheld c

/-- A deposit that returns Ok on a non-negative amount preserves the
invariant. -/
theorem deposit_good (cmd : DepositCommand) (e : Engine) (hg : GoodState e)
    (hnn : 0 ≤ cmd.amount) (hok : (process_deposit_command cmd e).2 = true) :
    GoodState (process_deposit_command cmd e).1 := by
  by_cases hdup : (lookupKey cmd.tx e.txs).isSome = true
  · rw [deposit_dup hdup]
    exact hg
  · have h' : (lookupKey cmd.tx e.txs).isSome = false := by
      revert hdup; cases (lookupKey cmd.tx e.txs).isSome <;> simp
    have hnone : lookupKey cmd.tx e.txs = none := by
      revert h'; rcases lookupKey cmd.tx e.txs with _ | v <;> simp
    obtain ⟨hacc1, hrec1, hheld1⟩ := goodState_acct_mut cmd.client e hg
    by_cases hlk : (acct_mut cmd.client e).2.locked = true
    · rw [deposit_locked h' hlk]
      exact ⟨hacc1, hrec1, hheld1⟩
    · have hlkf : (acct_mut cmd.client e).2.locked = false := by
        revert hlk; cases (acct_mut cmd.client e).2.locked <;> simp
      rcases hadd : checked_add (acct_mut cmd.client e).2.available cmd.amount with _ | v
      · rw [deposit_addfail h' hlkf hadd] at hok
        simp at hok
      · obtain ⟨hveq, _, _⟩ := checked_add_some hadd
        obtain ⟨hbnd1, hbnd2, hbnd3⟩ := acct_mut_snd_ok cmd.client e hg.1
        have hlook : lookupKey cmd.client (acct_mut cmd.client e).1.accounts =
            some (acct_mut cmd.client e).2 := lookup_acct_mut_self _ _
        rw [deposit_success h' hlkf hadd]
        refine ⟨?_, ?_, ?_⟩
        · intro p hp
          simp only at hp
          have hacc1x : ∀ p ∈ (acct_mut cmd.client e).1.accounts,
              0 ≤ p.2.available ∧ 0 ≤ p.2.held ∧ p.2.held ≤ i64Max := hacc1
          refine forall_mem_updateKey
            (fun x : Account => 0 ≤ x.available ∧ 0 ≤ x.held ∧ x.held ≤ i64Max) hacc1x ?_ p hp
          intro w hw
          rw [hlook] at hw
          have hwa := Option.some_inj.mp hw
          rw [← hwa]
          exact ⟨show 0 ≤ v by rw [hveq]; linarith, hbnd2, hbnd3⟩
        · intro q hq
          simp only at hq
          rw [acct_mut_txs] at hq
          rcases List.mem_append.mp hq with hq | hq
          · exact hg.2.1 q hq
          · rcases List.mem_singleton.mp hq with h2
            rw [h2]
            exact hnn
        · intro c2
          have hTX : disputedSum c2 ((acct_mut cmd.client e).1.txs ++
              [(cmd.tx, { client := cmd.client, kind := TxKind.Deposit,
                          amount := cmd.amount, state := DisputeState.Normal })]) =
              disputedSum c2 e.txs := by
            rw [acct_mut_txs, disputedSum_append]
            simp [contrib]
          by_cases hc2 : c2 = cmd.client
          · subst hc2
            unfold acctOf
            simp only
            rw [lookupKey_updateKey_self, hlook, hTX]
            simp only [Option.map_some', Option.getD_some]
            rw [← held_eq_disputed cmd.client e hg.2.2]
          · unfold acctOf
            simp only
            rw [lookupKey_updateKey_ne _ _ hc2, hTX]
            have := hheld1 c2
            unfold acctOf at this
            rw [acct_mut_txs] at this
            exact this

/-- A withdrawal that returns Ok on a non-negative amount preserves the
invariant. -/
theorem withdrawal_good (cmd : WithdrawalCommand) (e : Engine) (hg : GoodState e)
    (hnn : 0 ≤ cmd.amount) (hok : (process_withdrawal_command cmd e).2 = true) :
    GoodState (process_withdrawal_command cmd e).1 := by
  by_cases hdup : (lookupKey cmd.tx e.txs).isSome = true
  · rw [withdrawal_dup hdup]
    exact hg
  · have h' : (lookupKey cmd.tx e.txs).isSome = false := by
      revert hdup; cases (lookupKey cmd.tx e.txs).isSome <;> simp
    obtain ⟨hacc1, hrec1, hheld1⟩ := goodState_acct_mut cmd.client e hg
    by_cases hlk : (acct_mut cmd.client e).2.locked = true
    · rw [withdrawal_locked h' hlk]
      exact ⟨hacc1, hrec1, hheld1⟩
    · have hlkf : (acct_mut cmd.client e).2.locked = false := by
        revert hlk; cases (acct_mut cmd.client e).2.locked <;> simp
      by_cases hav : (acct_mut cmd.client e).2.available < cmd.amount
      · rw [withdrawal_insufficient h' hlkf hav]
        exact ⟨hacc1, hrec1, hheld1⟩
      · rcases hsub : checked_sub (acct_mut cmd.client e).2.available cmd.amount with _ | v
        · rw [withdrawal_subfail h' hlkf hav hsub] at hok
          simp at hok
        · obtain ⟨hveq, _, _⟩ := checked_sub_some hsub
          obtain ⟨hbnd1, hbnd2, hbnd3⟩ := acct_mut_snd_ok cmd.client e hg.1
          have hnotlt : cmd.amount ≤ (acct_mut cmd.client e).2.available := le_of_not_lt hav
          have hlook : lookupKey cmd.client (acct_mut cmd.client e).1.accounts =
              some (acct_mut cmd.client e).2 := lookup_acct_mut_self _ _
          rw [withdrawal_success h' hlkf hav hsub]
          refine ⟨?_, ?_, ?_⟩
          · intro p hp
            simp only at hp
            have hacc1x : ∀ p ∈ (acct_mut cmd.client e).1.accounts,
                0 ≤ p.2.available ∧ 0 ≤ p.2.held ∧ p.2.held ≤ i64Max := hacc1
            refine forall_mem_updateKey
              (fun x : Account => 0 ≤ x.available ∧ 0 ≤ x.held ∧ x.held ≤ i64Max) hacc1x ?_ p hp
            intro w hw
            rw [hlook] at hw
            have hwa := Option.some_inj.mp hw
            rw [← hwa]
            exact ⟨show 0 ≤ v by rw [hveq]; linarith, hbnd2, hbnd3⟩
          · intro q hq
            simp only at hq
            rw [acct_mut_txs] at hq
            rcases List.mem_append.mp hq with hq | hq
            · exact hg.2.1 q hq
            · rcases List.mem_singleton.mp hq with h2
              rw [h2]
              exact hnn
          · intro c2
            have hTX : disputedSum c2 ((acct_mut cmd.client e).1.txs ++
                [(cmd.tx, { client := cmd.client, kind := TxKind.Withdrawal,
                            amount := cmd.amount, state := DisputeState.Normal })]) =
                disputedSum c2 e.txs := by
              rw [acct_mut_txs, disputedSum_append]
              simp [contrib]
            by_cases hc2 : c2 = cmd.client
            · subst hc2
              unfold acctOf
              simp only
              rw [lookupKey_updateKey_self, hlook, hTX]
              simp only [Option.map_some', Option.getD_some]
              rw [← held_eq_disputed cmd.client e hg.2.2]
            · unfold acctOf
              simp only
              rw [lookupKey_updateKey_ne _ _ hc2, hTX]
              have := hheld1 c2
              unfold acctOf at this
              rw [acct_mut_txs] at this
              exact this

/-- A dispute that returns Ok preserves the invariant. -/
theorem dispute_good (cmd : DisputeCommand) (e : Engine) (hg : GoodState e)
    (hok : (process_dispute_command cmd e).2 = true) :
    GoodState (process_dispute_command cmd e).1 := by
  rcases helig : disputeEligible cmd e with _ | amt
  · rw [dispute_inelig helig]
    exact hg
  · obtain ⟨r, hr, hcl, hkind, hnorm, hamt⟩ := disputeEligible_inv helig
    have hannn : 0 ≤ amt := by
      rw [← hamt]
      exact hg.2.1 (cmd.tx, r) (mem_of_lookupKey hr)
    obtain ⟨hacc1, hrec1, hheld1⟩ := goodState_acct_mut cmd.client e hg
    by_cases hav : (acct_mut cmd.client e).2.available < amt
    · rw [dispute_insufficient helig hav]
      exact ⟨hacc1, hrec1, hheld1⟩
    · rcases hsub : checked_sub (acct_mut cmd.client e).2.available amt with _ | av
      · rw [dispute_subfail helig hav hsub] at hok
        simp at hok
      · rcases hadd : checked_add (acct_mut cmd.client e).2.held amt with _ | hd
        · rw [dispute_addfail helig hav hsub hadd] at hok
          simp at hok
        · obtain ⟨hveq, _, _⟩ := checked_sub_some hsub
          obtain ⟨hdeq, hdr1, hdr2⟩ := checked_add_some hadd
          obtain ⟨hbnd1, hbnd2, hbnd3⟩ := acct_mut_snd_ok cmd.client e hg.1
          have hnotlt : amt ≤ (acct_mut cmd.client e).2.available := le_of_not_lt hav
          have hlook : lookupKey cmd.client (acct_mut cmd.client e).1.accounts =
              some (acct_mut cmd.client e).2 := lookup_acct_mut_self _ _
          have hlookmid : lookupKey cmd.client
              (updateKey cmd.client (fun a => { a with available := av })
                (acct_mut cmd.client e).1.accounts) =
              some { (acct_mut cmd.client e).2 with available := av } := by
            rw [lookupKey_updateKey_self, hlook]
            rfl
          rw [dispute_success helig hav hsub hadd]
          refine ⟨?_, ?_, ?_⟩
          · intro p hp
            simp only at hp
            have hacc1x : ∀ p ∈ (acct_mut cmd.client e).1.accounts,
                0 ≤ p.2.available ∧ 0 ≤ p.2.held ∧ p.2.held ≤ i64Max := hacc1
            have hmid : ∀ p ∈ updateKey cmd.client (fun a => { a with available := av })
                (acct_mut cmd.client e).1.accounts,
                0 ≤ p.2.available ∧ 0 ≤ p.2.held ∧ p.2.held ≤ i64Max := by
              refine forall_mem_updateKey
                (fun x : Account => 0 ≤ x.available ∧ 0 ≤ x.held ∧ x.held ≤ i64Max) hacc1x ?_
              intro w hw
              rw [hlook] at hw
              have hwa := Option.some_inj.mp hw
              rw [← hwa]
              exact ⟨show 0 ≤ av by rw [hveq]; linarith, hbnd2, hbnd3⟩
            refine forall_mem_updateKey
              (fun x : Account => 0 ≤ x.available ∧ 0 ≤ x.held ∧ x.held ≤ i64Max) hmid ?_ p hp
            intro w hw
            rw [hlookmid] at hw
            have hwa := Option.some_inj.mp hw
            rw [← hwa]
            exact ⟨show 0 ≤ av by rw [hveq]; linarith,
                   show 0 ≤ hd by rw [hdeq]; linarith,
                   show hd ≤ i64Max by rw [hdeq]; linarith⟩
          · intro q hq
            simp only at hq
            have hrecx : ∀ p ∈ (acct_mut cmd.client e).1.txs, 0 ≤ p.2.amount := hrec1
            have hf : ∀ w, lookupKey cmd.tx (acct_mut cmd.client e).1.txs = some w →
                0 ≤ ({ w with state := DisputeState.Disputed } : TxRecord).amount := by
              intro w hw
              rw [acct_mut_txs] at hw
              exact hg.2.1 (cmd.tx, w) (mem_of_lookupKey hw)
            exact forall_mem_updateKey (fun x : TxRecord => 0 ≤ x.amount) hrecx hf q hq
          · intro c2
            have hrtx : lookupKey cmd.tx (acct_mut cmd.client e).1.txs = some r := by
              rw [acct_mut_txs]
              exact hr
            have hTXeq : disputedSum c2
                (updateKey cmd.tx (fun r => { r with state := DisputeState.Disputed })
                  (acct_mut cmd.client e).1.txs) =
                disputedSum c2 e.txs - contrib c2 (cmd.tx, r) +
                  contrib c2 (cmd.tx, { r with state := DisputeState.Disputed }) := by
              rw [disputedSum_updateKey c2 _ hrtx, acct_mut_txs]
            by_cases hc2 : c2 = cmd.client
            · subst hc2
              have hcb : contrib cmd.client (cmd.tx, r) = 0 := by
                simp [contrib, hnorm]
              have hca : contrib cmd.client
                  (cmd.tx, { r with state := DisputeState.Disputed }) = amt := by
                simp [contrib, hcl, hamt]
              have hheld0 : (acct_mut cmd.client e).2.held =
                  disputedSum cmd.client e.txs :=
                held_eq_disputed cmd.client e hg.2.2
              unfold acctOf
              simp only
              rw [lookupKey_updateKey_self, lookupKey_updateKey_self, hlook]
              simp only [Option.map_some', Option.getD_some]
              rw [hTXeq, hcb, hca]
              show hd = disputedSum cmd.client e.txs - 0 + amt
              rw [hdeq, ← hheld0]
              ring
            · have hrne : ¬(r.client = c2) := by
                rw [hcl]
                exact fun hh => hc2 hh.symm
              have hcb : contrib c2 (cmd.tx, r) = 0 := by
                simp [contrib, hrne]
              have hca : contrib c2 (cmd.tx, { r with state := DisputeState.Disputed }) =
                  0 := by
                simp [contrib, hrne]
              unfold acctOf
              simp only
              rw [lookupKey_updateKey_ne _ _ hc2, lookupKey_updateKey_ne _ _ hc2,
                hTXeq, hcb, hca]
              have := hheld1 c2
              unfold acctOf at this
              rw [acct_mut_txs] at this
              rw [this]
              ring

/-- A resolve that returns Ok preserves the invariant. -/
theorem resolve_good (cmd : ResolveCommand) (e : Engine) (hg : GoodState e)
    (hok : (process_resolve_command cmd e).2 = true) :
    GoodState (process_resolve_command cmd e).1 := by
  rcases helig : resolveEligible cmd e with _ | amt
  · rw [resolve_inelig helig]
    exact hg
  · obtain ⟨r, hr, hcl, hdisp, hamt⟩ := resolveEligible_inv helig
    have hannn : 0 ≤ amt := by
      rw [← hamt]
      exact hg.2.1 (cmd.tx, r) (mem_of_lookupKey hr)
    obtain ⟨hacc1, hrec1, hheld1⟩ := goodState_acct_mut cmd.client e hg
    by_cases hhl : (acct_mut cmd.client e).2.held < amt
    · rw [resolve_heldlow helig hhl] at hok
      simp at hok
    · rcases hsub : checked_sub (acct_mut cmd.client e).2.held amt with _ | hd
      · rw [resolve_subfail helig hhl hsub] at hok
        simp at hok
      · rcases hadd : checked_add (acct_mut cmd.client e).2.available amt with _ | av
        · rw [resolve_addfail helig hhl hsub hadd] at hok
          simp at hok
        · obtain ⟨hdeq, _, _⟩ := checked_sub_some hsub
          obtain ⟨haeq, _, _⟩ := checked_add_some hadd
          obtain ⟨hbnd1, hbnd2, hbnd3⟩ := acct_mut_snd_ok cmd.client e hg.1
          have hnotlt : amt ≤ (acct_mut cmd.client e).2.held := le_of_not_lt hhl
          have hlook : lookupKey cmd.client (acct_mut cmd.client e).1.accounts =
              some (acct_mut cmd.client e).2 := lookup_acct_mut_self _ _
          have hlookmid : lookupKey cmd.client
              (updateKey cmd.client (fun a => { a with held := hd })
                (acct_mut cmd.client e).1.accounts) =
              some { (acct_mut cmd.client e).2 with held := hd } := by
            rw [lookupKey_updateKey_self, hlook]
            rfl
          rw [resolve_success helig hhl hsub hadd]
          refine ⟨?_, ?_, ?_⟩
          · intro p hp
            simp only at hp
            have hacc1x : ∀ p ∈ (acct_mut cmd.client e).1.accounts,
                0 ≤ p.2.available ∧ 0 ≤ p.2.held ∧ p.2.held ≤ i64Max := hacc1
            have hmid : ∀ p ∈ updateKey cmd.client (fun a => { a with held := hd })
                (acct_mut cmd.client e).1.accounts,
                0 ≤ p.2.available ∧ 0 ≤ p.2.held ∧ p.2.held ≤ i64Max := by
              refine forall_mem_updateKey
                (fun x : Account => 0 ≤ x.available ∧ 0 ≤ x.held ∧ x.held ≤ i64Max)
                hacc1x ?_
              intro w hw
              rw [hlook] at hw
              have hwa := Option.some_inj.mp hw
              rw [← hwa]
              exact ⟨hbnd1, show 0 ≤ hd by rw [hdeq]; linarith,
                     show hd ≤ i64Max by rw [hdeq]; linarith⟩
            refine forall_mem_updateKey
              (fun x : Account => 0 ≤ x.available ∧ 0 ≤ x.held ∧ x.held ≤ i64Max)
              hmid ?_ p hp
            intro w hw
            rw [hlookmid] at hw
            have hwa := Option.some_inj.mp hw
            rw [← hwa]
            exact ⟨show 0 ≤ av by rw [haeq]; linarith,
                   show 0 ≤ hd by rw [hdeq]; linarith,
                   show hd ≤ i64Max by rw [hdeq]; linarith⟩
          · intro q hq
            simp only at hq
            have hrecx : ∀ p ∈ (acct_mut cmd.client e).1.txs, 0 ≤ p.2.amount := hrec1
            have hf : ∀ w, lookupKey cmd.tx (acct_mut cmd.client e).1.txs = some w →
                0 ≤ ({ w with state := DisputeState.Normal } : TxRecord).amount := by
              intro w hw
              rw [acct_mut_txs] at hw
              exact hg.2.1 (cmd.tx, w) (mem_of_lookupKey hw)
            exact forall_mem_updateKey (fun x : TxRecord => 0 ≤ x.amount) hrecx hf q hq
          · intro c2
            have hrtx : lookupKey cmd.tx (acct_mut cmd.client e).1.txs = some r := by
              rw [acct_mut_txs]
              exact hr
            have hTXeq : disputedSum c2
                (updateKey cmd.tx (fun r => { r with state := DisputeState.Normal })
                  (acct_mut cmd.client e).1.txs) =
                disputedSum c2 e.txs - contrib c2 (cmd.tx, r) +
                  contrib c2 (cmd.tx, { r with state := DisputeState.Normal }) := by
              rw [disputedSum_updateKey c2 _ hrtx, acct_mut_txs]
            by_cases hc2 : c2 = cmd.client
            · subst hc2
              have hcb : contrib cmd.client (cmd.tx, r) = amt := by
                simp [contrib, hcl, hdisp, hamt]
              have hca : contrib cmd.client
                  (cmd.tx, { r with state := DisputeState.Normal }) = 0 := by
                simp [contrib]
              have hheld0 : (acct_mut cmd.client e).2.held =
                  disputedSum cmd.client e.txs :=
                held_eq_disputed cmd.client e hg.2.2
              unfold acctOf
              simp only
              rw [lookupKey_updateKey_self, lookupKey_updateKey_self, hlook]
              simp only [Option.map_some', Option.getD_some]
              rw [hTXeq, hcb, hca]
              show hd = disputedSum cmd.client e.txs - amt + 0
              rw [hdeq, ← hheld0]
              ring
            · have hrne : ¬(r.client = c2) := by
                rw [hcl]
                exact fun hh => hc2 hh.symm
              have hcb : contrib c2 (cmd.tx, r) = 0 := by
                simp [contrib, hrne]
              have hca : contrib c2 (cmd.tx, { r with state := DisputeState.Normal }) =
                  0 := by
                simp [contrib, hrne]
              unfold acctOf
              simp only
              rw [lookupKey_updateKey_ne _ _ hc2, lookupKey_updateKey_ne _ _ hc2,
                hTXeq, hcb, hca]
              have := hheld1 c2
              unfold acctOf at this
              rw [acct_mut_txs] at this
              rw [this]
              ring

/-- A chargeback that returns Ok preserves the invariant. -/
theorem chargeback_good (cmd : ChargebackCommand) (e : Engine) (hg : GoodState e)
    (hok : (process_chargeback_command cmd e).2 = true) :
    GoodState (process_chargeback_command cmd e).1 := by
  rcases helig : chargebackEligible cmd e with _ | amt
  · rw [chargeback_inelig helig]
    exact hg
  · obtain ⟨r, hr, hcl, hdisp, hamt⟩ := chargebackEligible_inv helig
    have hannn : 0 ≤ amt := by
      rw [← hamt]
      exact hg.2.1 (cmd.tx, r) (mem_of_lookupKey hr)
    obtain ⟨hacc1, hrec1, hheld1⟩ := goodState_acct_mut cmd.client e hg
    rcases hsub : checked_sub (acct_mut cmd.client e).2.held amt with _ | hd
    · rw [chargeback_subfail helig hsub] at hok
      simp at hok
    · obtain ⟨hdeq, _, _⟩ := checked_sub_some hsub
      obtain ⟨hbnd1, hbnd2, hbnd3⟩ := acct_mut_snd_ok cmd.client e hg.1
      have hcontrib : contrib cmd.client (cmd.tx, r) = amt := by
        simp [contrib, hcl, hdisp, hamt]
      have hamtle : amt ≤ (acct_mut cmd.client e).2.held := by
        rw [held_eq_disputed cmd.client e hg.2.2, ← hcontrib]
        exact contrib_le_disputedSum hr hg.2.1
      have hlook : lookupKey cmd.client (acct_mut cmd.client e).1.accounts =
          some (acct_mut cmd.client e).2 := lookup_acct_mut_self _ _
      rw [chargeback_success helig hsub]
      refine ⟨?_, ?_, ?_⟩
      · intro p hp
        simp only at hp
        have hacc1x : ∀ p ∈ (acct_mut cmd.client e).1.accounts,
            0 ≤ p.2.available ∧ 0 ≤ p.2.held ∧ p.2.held ≤ i64Max := hacc1
        refine forall_mem_updateKey
          (fun x : Account => 0 ≤ x.available ∧ 0 ≤ x.held ∧ x.held ≤ i64Max)
          hacc1x ?_ p hp
        intro w hw
        rw [hlook] at hw
        have hwa := Option.some_inj.mp hw
        rw [← hwa]
        exact ⟨hbnd1, show 0 ≤ hd by rw [hdeq]; linarith,
               show hd ≤ i64Max by rw [hdeq]; linarith⟩
      · intro q hq
        simp only at hq
        have hrecx : ∀ p ∈ (acct_mut cmd.client e).1.txs, 0 ≤ p.2.amount := hrec1
        have hf : ∀ w, lookupKey cmd.tx (acct_mut cmd.client e).1.txs = some w →
            0 ≤ ({ w with state := DisputeState.ChargedBack } : TxRecord).amount := by
          intro w hw
          rw [acct_mut_txs] at hw
          exact hg.2.1 (cmd.tx, w) (mem_of_lookupKey hw)
        exact forall_mem_updateKey (fun x : TxRecord => 0 ≤ x.amount) hrecx hf q hq
      · intro c2
        have hrtx : lookupKey cmd.tx (acct_mut cmd.client e).1.txs = some r := by
          rw [acct_mut_txs]
          exact hr
        have hTXeq : disputedSum c2
            (updateKey cmd.tx (fun r => { r with state := DisputeState.ChargedBack })
              (acct_mut cmd.client e).1.txs) =
            disputedSum c2 e.txs - contrib c2 (cmd.tx, r) +
              contrib c2 (cmd.tx, { r with state := DisputeState.ChargedBack }) := by
          rw [disputedSum_updateKey c2 _ hrtx, acct_mut_txs]
        by_cases hc2 : c2 = cmd.client
        · subst hc2
          have hcb : contrib cmd.client (cmd.tx, r) = amt := hcontrib
          have hca : contrib cmd.client
              (cmd.tx, { r with state := DisputeState.ChargedBack }) = 0 := by
            simp [contrib]
          have hheld0 : (acct_mut cmd.client e).2.held =
              disputedSum cmd.client e.txs :=
            held_eq_disputed cmd.client e hg.2.2
          unfold acctOf
          simp only
          rw [lookupKey_updateKey_self, hlook]
          simp only [Option.map_some', Option.getD_some]
          rw [hTXeq, hcb, hca]
          show hd = disputedSum cmd.client e.txs - amt + 0
          rw [hdeq, ← hheld0]
          ring
        · have hrne : ¬(r.client = c2) := by
            rw [hcl]
            exact fun hh => hc2 hh.symm
          have hcb : contrib c2 (cmd.tx, r) = 0 := by
            simp [contrib, hrne]
          have hca : contrib c2 (cmd.tx, { r with state := DisputeState.ChargedBack }) =
              0 := by
            simp [contrib, hrne]
          unfold acctOf
          simp only
          rw [lookupKey_updateKey_ne _ _ hc2, hTXeq, hcb, hca]
          have := hheld1 c2
          unfold acctOf at this
          rw [acct_mut_txs] at this
          rw [this]
          ring

/-- A single command with a non-negative amount that returns Ok preserves the
invariant. -/
theorem goodState_step (cd : Command) (e : Engine) (hg : GoodState e)
    (hnn : cmdNonneg cd = true) (hok : (step cd e).2 = true) :
    GoodState (step cd e).1 := by
  cases cd with
  | deposit c tx a =>
      exact deposit_good _ e hg (by simpa [cmdNonneg] using hnn) hok
  | withdrawal c tx a =>
      exact withdrawal_good _ e hg (by simpa [cmdNonneg] using hnn) hok
  | dispute c tx =>
      exact dispute_good _ e hg hok
  | resolve c tx =>
      exact resolve_good _ e hg hok
  | chargeback c tx =>
      exact chargeback_good _ e hg hok

/-- The empty ledger satisfies the invariant. -/
theorem goodState_empty : GoodState emptyEngine := by
  refine ⟨?_, ?_, ?_⟩
  · intro p hp
    simp [emptyEngine] at hp
  · intro q hq
    simp [emptyEngine] at hq
  · intro c
    simp [emptyEngine, acctOf, disputedSum, lookupKey]

/-- Running a list of non-negative commands in which every command returned
Ok preserves the invariant. -/
theorem goodState_runAllAux (cs : List Command) :
    ∀ e : Engine, GoodState e → (∀ cd ∈ cs, cmdNonneg cd = true) →
      (runAllAux e cs).2 = true → GoodState (runAllAux e cs).1 := by
  induction cs with
  | nil =>
      intro e hg _ _
      exact hg
  | cons c cs ih =>
      intro e hg hnn hok
      simp only [runAllAux, Bool.and_eq_true] at hok
      simp only [runAllAux]
      exact ih (step c e).1
        (goodState_step c e hg (hnn c (List.mem_cons_self c cs)) hok.1)
        (fun cd hcd => hnn cd (List.mem_cons_of_mem c hcd)) hok.2

/-- C2 (amended): starting from the empty ledger, for any command sequence
whose deposit and withdrawal amounts are non-negative and in which every
command returned Ok, every stored account has non-negative available and
held balances after the run. -/
theorem balances_nonneg_amended (cmds : List Command)
    (hnn : ∀ cd ∈ cmds, cmdNonneg cd = true)
    (hok : (runAllAux emptyEngine cmds).2 = true) :
    ∀ p ∈ (runAllAux emptyEngine cmds).1.accounts,
      0 ≤ p.2.available ∧ 0 ≤ p.2.held := by
  intro p hp
  have hg := goodState_runAllAux cmds emptyEngine goodState_empty hnn hok
  exact ⟨(hg.1 p hp).1, (hg.1 p hp).2.1⟩

/-- Witness for balances_nonneg_amended at a concrete run. -/
theorem balances_nonneg_amended_witness :
    0 ≤ (acctOf 1 (runAllAux emptyEngine
        [Command.deposit 1 1 50000, Command.withdrawal 1 2 20000]).1).available ∧
    0 ≤ (acctOf 1 (runAllAux emptyEngine
        [Command.deposit 1 1 50000, Command.withdrawal 1 2 20000]).1).held := by
  have h := balances_nonneg_amended
      [Command.deposit 1 1 50000, Command.withdrawal 1 2 20000] (by decide) (by decide)
      (1, acctOf 1 (runAllAux emptyEngine
        [Command.deposit 1 1 50000, Command.withdrawal 1 2 20000]).1) (by decide)
  exact h

/-- C10 (amended): in every state reachable from the empty ledger by
non-negative commands that each returned Ok, each client's held balance
equals the sum of that client's currently Disputed record amounts, and the
checked subtraction of a Disputed record's amount from its owner's held
balance (the operation performed by Resolve and by Chargeback) succeeds. -/
theorem held_matches_disputed_amended (cmds : List Command)
    (hnn : ∀ cd ∈ cmds, cmdNonneg cd = true)
    (hok : (runAllAux emptyEngine cmds).2 = true) :
    (∀ c, (acctOf c (runAllAux emptyEngine cmds).1).held =
        disputedSum c (runAllAux emptyEngine cmds).1.txs) ∧
    (∀ tx r, lookupKey tx (runAllAux emptyEngine cmds).1.txs = some r →
      r.state = DisputeState.Disputed →
      checked_sub (acctOf r.client (runAllAux emptyEngine cmds).1).held r.amount =
        some ((acctOf r.client (runAllAux emptyEngine cmds).1).held - r.amount)) := by
  have hg := goodState_runAllAux cmds emptyEngine goodState_empty hnn hok
  refine ⟨hg.2.2, ?_⟩
  intro tx r hr hdisp
  have hamt : 0 ≤ r.amount := hg.2.1 (tx, r) (mem_of_lookupKey hr)
  have hcontrib : contrib r.client (tx, r) = r.amount := by
    simp [contrib, hdisp]
  have hle : r.amount ≤ (acctOf r.client (runAllAux emptyEngine cmds).1).held := by
    rw [hg.2.2 r.client, ← hcontrib]
    exact contrib_le_disputedSum hr hg.2.1
  have hmax : (acctOf r.client (runAllAux emptyEngine cmds).1).held ≤ i64Max := by
    unfold acctOf
    rcases hl : lookupKey r.client (runAllAux emptyEngine cmds).1.accounts with _ | a
    · simp
      decide
    · simp
      exact (hg.1 (r.client, a) (mem_of_lookupKey hl)).2.2
  have hmin : (0 : Int) ≤ i64Max + i64Min + i64Max := by decide
  unfold checked_sub
  rw [if_pos]
  constructor
  · have : (0 : Int) ≥ i64Min := by decide
    linarith
  · linarith

/-- Witness for held_matches_disputed_amended at a concrete run. -/
theorem held_matches_disputed_amended_witness :
    (acctOf 1 (runAllAux emptyEngine
        [Command.deposit 1 1 50000, Command.dispute 1 1]).1).held =
      disputedSum 1 (runAllAux emptyEngine
        [Command.deposit 1 1 50000, Command.dispute 1 1]).1.txs ∧
    checked_sub (acctOf 1 (runAllAux emptyEngine
        [Command.deposit 1 1 50000, Command.dispute 1 1]).1).held 50000 =
      some ((acctOf 1 (runAllAux emptyEngine
        [Command.deposit 1 1 50000, Command.dispute 1 1]).1).held - 50000) := by
  have h := held_matches_disputed_amended
      [Command.deposit 1 1 50000, Command.dispute 1 1] (by decide) (by decide)
  refine ⟨h.1 1, ?_⟩
  have h2 := h.2 1
      { client := 1, kind := TxKind.Deposit, amount := 50000,
        state := DisputeState.Disputed } (by decide) rfl
  exact h2

/-
Claim C9: the parse error taxonomy.
-/

theorem parseNatDigits_some_inv {cs : List Char} {n : Nat}
    (h : parseNatDigits cs = some n) : cs ≠ [] ∧ cs.all isDigitCh = true := by
  unfold parseNatDigits at h
  split at h
  · rename_i hc
    exact ⟨hc.1, hc.2⟩
  · exact absurd h (by simp)

theorem parseI64core_some_inv {cs : List Char} {neg : Bool} {v : Int}
    (h : parseI64core cs neg = some v) : cs ≠ [] ∧ cs.all isDigitCh = true := by
  unfold parseI64core at h
  rcases hn : parseNatDigits cs with _ | n
  · rw [hn] at h
    exact absurd h (by simp)
  · exact parseNatDigits_some_inv hn

theorem signedDigits_of_parseI64_some {cs : List Char} {v : Int}
    (h : parseI64 cs = some v) : signedDigitsOk cs = true := by
  cases cs with
  | nil => simp [parseI64] at h
  | cons c r =>
    simp only [parseI64] at h
    by_cases hp : c = '+'
    · rw [if_pos hp] at h
      obtain ⟨hne, hall⟩ := parseI64core_some_inv h
      cases r with
      | nil => exact absurd rfl hne
      | cons d s =>
        simpa [signedDigitsOk, hp] using hall
    · rw [if_neg hp] at h
      by_cases hm : c = '-'
      · rw [if_pos hm] at h
        obtain ⟨hne, hall⟩ := parseI64core_some_inv h
        cases r with
        | nil => exact absurd rfl hne
        | cons d s =>
          simpa [signedDigitsOk, hm] using hall
      · rw [if_neg hm] at h
        obtain ⟨hx, hall⟩ := parseI64core_some_inv h
        simpa [signedDigitsOk, hp, hm] using hall

theorem parseI64_none_of_not_signedDigits {cs : List Char}
    (h : signedDigitsOk cs = false) : parseI64 cs = none := by
  rcases hp : parseI64 cs with _ | v
  · rfl
  · rw [signedDigits_of_parseI64_some hp] at h
    exact absurd h (by simp)

theorem digitsVal_foldl_lt : ∀ (cs : List Char) (a : Nat), cs.all isDigitCh = true →
    List.foldl (fun n c => n * 10 + (c.toNat - 48)) a cs < (a + 1) * 10 ^ cs.length := by
  intro cs
  induction cs with
  | nil =>
      intro a h2
      simp
  | cons c r ih =>
      intro a hall
      simp only [List.all_cons, Bool.and_eq_true] at hall
      have hd : c.toNat - 48 ≤ 9 := by
        have h1 := hall.1
        simp [isDigitCh] at h1
        omega
      have h1 := ih (a * 10 + (c.toNat - 48)) hall.2
      have h2 : (a * 10 + (c.toNat - 48) + 1) * 10 ^ r.length ≤
          (a + 1) * 10 ^ (r.length + 1) := by
        have h3 : a * 10 + (c.toNat - 48) + 1 ≤ (a + 1) * 10 := by omega
        calc (a * 10 + (c.toNat - 48) + 1) * 10 ^ r.length
            ≤ ((a + 1) * 10) * 10 ^ r.length := Nat.mul_le_mul h3 (Nat.le_refl _)
          _ = (a + 1) * 10 ^ (r.length + 1) := by ring
      simp only [List.foldl_cons, List.length_cons]
      exact lt_of_lt_of_le h1 h2

theorem digitsVal_lt {cs : List Char} (h : cs.all isDigitCh = true) :
    digitsVal cs < 10 ^ cs.length := by
  have := digitsVal_foldl_lt cs 0 h
  simpa [digitsVal] using this

theorem parseI64core_some_of_digits (neg : Bool) {cs : List Char}
    (hne : cs ≠ []) (hall : cs.all isDigitCh = true) (hlen : cs.length ≤ 18) :
    ∃ v, parseI64core cs neg = some v := by
  have hpow : (10 : Nat) ^ cs.length ≤ 10 ^ 18 := Nat.pow_le_pow_right (by omega) hlen
  have hval : digitsVal cs < 10 ^ 18 := lt_of_lt_of_le (digitsVal_lt hall) hpow
  have hp18 : (10 : Nat) ^ 18 = 1000000000000000000 := by norm_num
  have hub : (digitsVal cs : Int) ≤ i64Max := by
    unfold i64Max
    omega
  have hlb : i64Min ≤ -(digitsVal cs : Int) := by
    unfold i64Min
    omega
  have hpd : parseNatDigits cs = some (digitsVal cs) := by
    unfold parseNatDigits
    rw [if_pos ⟨hne, hall⟩]
  unfold parseI64core
  rw [hpd]
  show ∃ v, i64OfNat (digitsVal cs) neg = some v
  cases neg with
  | false =>
      refine ⟨(digitsVal cs : Int), ?_⟩
      simp [i64OfNat, hub]
  | true =>
      refine ⟨-(digitsVal cs : Int), ?_⟩
      simp [i64OfNat, hlb]

theorem parseI64_some_of_signedDigits {cs : List Char}
    (h : signedDigitsOk cs = true) (hlen : cs.length ≤ 18) :
    ∃ v, parseI64 cs = some v := by
  cases cs with
  | nil => simp [signedDigitsOk] at h
  | cons c r =>
    simp only [signedDigitsOk] at h
    by_cases hpm : c = '+' ∨ c = '-'
    · rw [if_pos hpm] at h
      simp only [Bool.and_eq_true, Bool.not_eq_true'] at h
      have hne : r ≠ [] := by
        cases r with
        | nil => simp at h
        | cons d s => simp
      have hrlen : r.length ≤ 18 := by
        simp only [List.length_cons] at hlen
        omega
      rcases hpm with hp | hm
      · obtain ⟨v, hv⟩ := parseI64core_some_of_digits false hne h.2 hrlen
        refine ⟨v, ?_⟩
        simp only [parseI64]
        rw [if_pos hp]
        exact hv
      · obtain ⟨v, hv⟩ := parseI64core_some_of_digits true hne h.2 hrlen
        refine ⟨v, ?_⟩
        have hp2 : ¬(c = '+') := by
          rw [hm]
          decide
        simp only [parseI64]
        rw [if_neg hp2, if_pos hm]
        exact hv
    · rw [if_neg hpm] at h
      push_neg at hpm
      obtain ⟨v, hv⟩ := parseI64core_some_of_digits false (by simp) h hlen
      refine ⟨v, ?_⟩
      simp only [parseI64]
      rw [if_neg hpm.1, if_neg hpm.2]
      exact hv

theorem fracKeptOf_length (input : List Char) : (fracKeptOf input).length = 4 := by
  unfold fracKeptOf pad4
  simp [List.length_append, List.length_take, List.length_replicate]

theorem parseI64_none_iff_len4 {cs : List Char} (hlen : cs.length = 4) :
    parseI64 cs = none ↔ signedDigitsOk cs = false := by
  constructor
  · intro h
    rcases hb : signedDigitsOk cs with _ | _
    · rfl
    · obtain ⟨v, hv⟩ := parseI64_some_of_signedDigits hb (by omega)
      rw [hv] at h
      exact absurd h (by simp)
  · intro h
    rcases hp : parseI64 cs with _ | v
    · rfl
    · rw [signedDigits_of_parseI64_some hp] at h
      exact absurd h (by simp)

theorem parse_4dp_eq (input : List Char) :
    parse_4dp input =
      (if trimChars input = [] then Except.error AmountParseError.Empty
      else
        match parseI64 (intPartOf input) with
        | none => Except.error AmountParseError.MalformedInt
        | some intPart =>
          match parseI64 (fracKeptOf input) with
          | none => Except.error AmountParseError.MalformedFrac
          | some frac0 =>
            match (if (((splitAtDot (stripSign (trimChars input)).1).2.getD ['0']).drop 4 ≠ [] ∧
                       53 ≤ ((((splitAtDot (stripSign (trimChars input)).1).2.getD
                         ['0']).drop 4).headD ' ').toNat)
                   then checked_add frac0 1 else some frac0) with
            | none => Except.error AmountParseError.Overflow
            | some frac =>
              match checked_mul intPart SCALE with
              | none => Except.error AmountParseError.Overflow
              | some base =>
                match checked_add base frac with
                | none => Except.error AmountParseError.Overflow
                | some val =>
                  Except.ok (if (stripSign (trimChars input)).2 then -val else val)) := rfl

theorem parse_4dp_tail {input : List Char} {i f : Int}
    (htrim : trimChars input ≠ []) (hip : parseI64 (intPartOf input) = some i)
    (hfr : parseI64 (fracKeptOf input) = some f) :
    parse_4dp input = Except.error AmountParseError.Overflow ∨
    ∃ a, parse_4dp input = Except.ok a := by
  rw [parse_4dp_eq input, if_neg htrim]
  simp only [hip, hfr]
  split
  · exact Or.inl rfl
  · split
    · exact Or.inl rfl
    · split
      · exact Or.inl rfl
      · exact Or.inr ⟨_, rfl⟩

/-- C9 (amended): parse_4dp returns Empty exactly for blank input; returns
MalformedInt exactly when the (sign-stripped) integer part is rejected by the
i64 parser, which happens whenever it is not an optionally signed digit
string; returns MalformedFrac exactly when the integer part was accepted but
the four kept (zero-padded) fractional characters are not an optionally
signed digit string; and on success both submitted parts are optionally
signed digit strings.  The i64 parser itself admits one further leading sign,
and only the first four fractional characters are checked. -/
theorem parse_taxonomy_amended (input : List Char) :
    (parse_4dp input = Except.error AmountParseError.Empty ↔ trimChars input = []) ∧
    (parse_4dp input = Except.error AmountParseError.MalformedInt ↔
      trimChars input ≠ [] ∧ parseI64 (intPartOf input) = none) ∧
    (signedDigitsOk (intPartOf input) = false → parseI64 (intPartOf input) = none) ∧
    (parse_4dp input = Except.error AmountParseError.MalformedFrac ↔
      trimChars input ≠ [] ∧ parseI64 (intPartOf input) ≠ none ∧
        signedDigitsOk (fracKeptOf input) = false) ∧
    (∀ a : Amount, parse_4dp input = Except.ok a →
      signedDigitsOk (intPartOf input) = true ∧
        signedDigitsOk (fracKeptOf input) = true) := by
  by_cases htrim : trimChars input = []
  · have hA : parse_4dp input = Except.error AmountParseError.Empty := by
      rw [parse_4dp_eq input, if_pos htrim]
    refine ⟨⟨fun h2 => htrim, fun h2 => hA⟩, ?_, parseI64_none_of_not_signedDigits, ?_, ?_⟩
    · constructor
      · intro h
        rw [hA] at h
        simp at h
      · rintro ⟨hne, h2⟩
        exact absurd htrim hne
    · constructor
      · intro h
        rw [hA] at h
        simp at h
      · rintro ⟨hne, h2, h3⟩
        exact absurd htrim hne
    · intro a h
      rw [hA] at h
      simp at h
  · rcases Option.eq_none_or_eq_some (parseI64 (intPartOf input)) with hip | ⟨i, hip⟩
    · have hB : parse_4dp input = Except.error AmountParseError.MalformedInt := by
        rw [parse_4dp_eq input, if_neg htrim]
        simp only [hip]
      refine ⟨?_, ⟨fun h2 => ⟨htrim, hip⟩, fun h2 => hB⟩,
        parseI64_none_of_not_signedDigits, ?_, ?_⟩
      · constructor
        · intro h
          rw [hB] at h
          simp at h
        · intro h
          exact absurd h htrim
      · constructor
        · intro h
          rw [hB] at h
          simp at h
        · rintro ⟨h2, hipne, h3⟩
          exact absurd hip hipne
      · intro a h
        rw [hB] at h
        simp at h
    · rcases Option.eq_none_or_eq_some (parseI64 (fracKeptOf input)) with hfr | ⟨f, hfr⟩
      · have hC : parse_4dp input = Except.error AmountParseError.MalformedFrac := by
          rw [parse_4dp_eq input, if_neg htrim]
          simp only [hip, hfr]
        refine ⟨?_, ?_, parseI64_none_of_not_signedDigits, ?_, ?_⟩
        · constructor
          · intro h
            rw [hC] at h
            simp at h
          · intro h
            exact absurd h htrim
        · constructor
          · intro h
            rw [hC] at h
            simp at h
          · rintro ⟨h2, hipn⟩
            rw [hip] at hipn
            simp at hipn
        · refine ⟨fun h2 => ⟨htrim, ?_, ?_⟩, fun h2 => hC⟩
          · rw [hip]
            simp
          · exact (parseI64_none_iff_len4 (fracKeptOf_length input)).mp hfr
        · intro a h
          rw [hC] at h
          simp at h
      · have hD := parse_4dp_tail htrim hip hfr
        refine ⟨?_, ?_, parseI64_none_of_not_signedDigits, ?_, ?_⟩
        · constructor
          · intro h
            rcases hD with h0 | ⟨a, h0⟩ <;> rw [h0] at h <;> simp at h
          · intro h
            exact absurd h htrim
        · constructor
          · intro h
            rcases hD with h0 | ⟨a, h0⟩ <;> rw [h0] at h <;> simp at h
          · rintro ⟨h2, hipn⟩
            rw [hip] at hipn
            simp at hipn
        · constructor
          · intro h
            rcases hD with h0 | ⟨a, h0⟩ <;> rw [h0] at h <;> simp at h
          · rintro ⟨h2, h3, hsd⟩
            have hn := (parseI64_none_iff_len4 (fracKeptOf_length input)).mpr hsd
            rw [hfr] at hn
            simp at hn
        · intro a h
          exact ⟨signedDigits_of_parseI64_some hip, signedDigits_of_parseI64_some hfr⟩

/-- Witness for parse_taxonomy_amended at concrete inputs: a whitespace-only
input, a non-digit integer part, a non-digit kept fractional part, and a
plain success. -/
theorem parse_taxonomy_amended_witness :
    parse_4dp [' '] = Except.error AmountParseError.Empty ∧
    parse_4dp ['a'] = Except.error AmountParseError.MalformedInt ∧
    parse_4dp ['1', '.', 'a', '0', '0', '0'] = Except.error AmountParseError.MalformedFrac ∧
    (signedDigitsOk (intPartOf ['5']) = true ∧ signedDigitsOk (fracKeptOf ['5']) = true) :=
  ⟨(parse_taxonomy_amended [' ']).1.mpr (by decide),
   (parse_taxonomy_amended ['a']).2.1.mpr ⟨by decide, by decide⟩,
   (parse_taxonomy_amended ['1', '.', 'a', '0', '0', '0']).2.2.2.1.mpr
     ⟨by decide, by decide, by decide⟩,
   (parse_taxonomy_amended ['5']).2.2.2.2 50000 rfl⟩
